import Mathlib

/-!
# WebDAVSync: the diff-and-reconcile engine of `main.go`

A shallow embedding of `src/main.go` and the properties its specification states.

Modelling conventions.

* `fs.FileInfo` is an interface; the code only calls `Name`, `Size`, `ModTime`, `IsDir`.
  It is a record of those four values.  `Size` is an `int64` that is only compared, and
  `ModTime` is a `time.Time` that is only compared with `After`; both are integers
  (the instant of a `time.Time` is an integer number of nanoseconds).
* A Go `map[string]fs.FileInfo` is the list of its entries in one iteration order.  A real map
  has unique keys; the theorems that need this say so.
* A Go `error` is `Option ε`: `none` is `nil`.  A Go slice is a list, the `nil` slice is `[]`.
* `gowebdav.Client` is outside the repository.  It is an arbitrary state machine over a state
  `σ`: each call gets the current state and gives an outcome and the next state.
* The `World` carries, besides the transport state, a ghost `trace` of everything the program
  does to its surroundings: the calls of the `dav` methods, each underlying `Client` call with
  its outcome, and every line printed by `main`.
-/

namespace WebDAVSync

/-! ## Data model -/

/-- The four observations the code makes of an `fs.FileInfo`. -/
structure FileInfo where
  Name : String
  Size : Int
  ModTime : Int
  IsDir : Bool
  deriving DecidableEq, Repr

/-- The verdict of `t.After(u)` on two instants. -/
def After (t u : Int) : Bool := decide (u < t)

/-- The type `FileList` of line 19, `map[string]fs.FileInfo`, as its entries in iteration order. -/
abbrev FileList := List (String × FileInfo)

/-- The keys of a map, in iteration order. -/
def FileList.keys (l : FileList) : List String := l.map Prod.fst

/-- The map read `list[k]`; `none` stands for the zero value (a nil `fs.FileInfo`). -/
def FileList.get : FileList → String → Option FileInfo
  | [], _ => none
  | (k, v) :: rest, item => if k = item then some v else FileList.get rest item

/-- The map write `list[k] = v`: overwrite the entry of `k` if there is one, else add one. -/
def FileList.set : FileList → String → FileInfo → FileList
  | [], k, v => [(k, v)]
  | (k', v') :: rest, k, v =>
    if k' = k then (k', v) :: rest else (k', v') :: FileList.set rest k v

/-! ## Differ (`inList`, `CompareFiles`, lines 76-102) -/

/-- Lines 76-83: a linear search of `item` among the keys. -/
def inList : FileList → String → Bool
  | [], _ => false
  | (k, _) :: rest, item => if k = item then true else inList rest item

/-- The first loop of `CompareFiles` (lines 86-95) over the remaining entries of `oriFileList`.
`none` is the nil dereference `tFile.Size()` a missing key of `tarFileList` would cause. -/
def CompareFiles.oriLoop (tarFileList : FileList) :
    List (String × FileInfo) → List String → List String → Option (List String × List String)
  | [], addFList, updateFList => some (addFList, updateFList)
  | (oName, oFile) :: rest, addFList, updateFList =>
    if !inList tarFileList oName then
      CompareFiles.oriLoop tarFileList rest (addFList ++ [oName]) updateFList
    else
      match tarFileList.get oName with
      | none => none
      | some tFile =>
        if oFile.Size != tFile.Size || After oFile.ModTime tFile.ModTime then
          CompareFiles.oriLoop tarFileList rest addFList (updateFList ++ [oName])
        else
          CompareFiles.oriLoop tarFileList rest addFList updateFList

/-- The second loop of `CompareFiles` (lines 96-100) over the remaining entries of
`tarFileList`. -/
def CompareFiles.tarLoop (oriFileList : FileList) :
    List (String × FileInfo) → List String → List String
  | [], removeFList => removeFList
  | (tName, _) :: rest, removeFList =>
    if !inList oriFileList tName then
      CompareFiles.tarLoop oriFileList rest (removeFList ++ [tName])
    else
      CompareFiles.tarLoop oriFileList rest removeFList

/-- Lines 85-102.  The two `*dav` arguments of the source are never used and are left out.
The result is `(addFList, updateFList, removeFList)`. -/
def CompareFiles (oriFileList tarFileList : FileList) :
    Option (List String × List String × List String) :=
  match CompareFiles.oriLoop tarFileList oriFileList [] [] with
  | none => none
  | some (addFList, updateFList) =>
    some (addFList, updateFList, CompareFiles.tarLoop oriFileList tarFileList [])

/-! ## The surroundings: transports, the world and its trace -/

/-- File contents, `[]byte`. -/
abbrev Bytes := List Nat

/-- Which of the two `dav` values of `main` a call goes through: `oClient` or `tClient`. -/
inductive Side
  | origin
  | target
  deriving DecidableEq, Repr

/-- A remote operation with its arguments. -/
inductive Op
  | ReadDir (remoteDir : String)
  | Read (remoteFile : String)
  | Write (remoteFile : String) (data : Bytes)
  | Remove (remoteFile : String)
  deriving DecidableEq, Repr

/-- The lines `main` prints (lines 158-208); `ε` is the type of error values. -/
inductive Line (ε : Type)
  | listOrigin
  | listTarget
  | cantRead
  | addFile (v : String)
  | updateFile (v : String)
  | removeFile (v : String)
  | errReading (v : String) (err : ε)
  | errWriting (v : String) (err : ε)
  | written (v : String)
  | errRemoving (v : String) (err : ε)
  | removed (v : String)
  deriving DecidableEq, Repr

/-- What the program does to its surroundings, in order. -/
inductive Event (ε : Type)
  | call (side : Side) (method : Op)
  | attempt (side : Side) (op : Op) (ok : Bool)
  | print (line : Line ε)
  deriving DecidableEq, Repr

/-- The behaviour of a `*gowebdav.Client`: every call sees the transport state and gives an
outcome and the next state.  `Write` also gets the file mode. -/
structure Client (σ ε : Type) where
  ReadDir : String → σ → Except ε (List FileInfo) × σ
  Read : String → σ → Except ε Bytes × σ
  Write : String → Bytes → Nat → σ → Option ε × σ
  Remove : String → σ → Option ε × σ

/-- The transport state and the trace of what happened so far. -/
structure World (σ ε : Type) where
  state : σ
  trace : List (Event ε)
  deriving DecidableEq

/-- Append an event to the trace. -/
def World.log {σ ε : Type} (w : World σ ε) (e : Event ε) : World σ ε :=
  ⟨w.state, w.trace ++ [e]⟩

/-- The `fmt.Println` and `fmt.Printf` of `main`. -/
def World.print {σ ε : Type} (w : World σ ε) (l : Line ε) : World σ ε :=
  w.log (Event.print l)

/-- The struct `dav` of lines 13-18, reduced to its connected `Client`; `side` tells the two
values of `main` apart in the trace. -/
structure dav (σ ε : Type) where
  side : Side
  Client : Client σ ε

/-- Whether an outcome is `err == nil`. -/
def isNil {ε α : Type} : Except ε α → Bool
  | .ok _ => true
  | .error _ => false

/-! ## Remote Client (`ReadDir`, `RemoveFile`, `Read`, `Write`) -/

section RemoteClient
variable {σ ε : Type}

/-- One `d.Client.ReadDir(remoteDir)` (line 46). -/
def dav.clientReadDir (d : dav σ ε) (remoteDir : String) (w : World σ ε) :
    Except ε (List FileInfo) × World σ ε :=
  let r := d.Client.ReadDir remoteDir w.state
  (r.1, ⟨r.2, w.trace ++ [Event.attempt d.side (Op.ReadDir remoteDir) (isNil r.1)]⟩)

/-- One `d.Client.Read(remoteFile)` (line 118). -/
def dav.clientRead (d : dav σ ε) (remoteFile : String) (w : World σ ε) :
    Except ε Bytes × World σ ε :=
  let r := d.Client.Read remoteFile w.state
  (r.1, ⟨r.2, w.trace ++ [Event.attempt d.side (Op.Read remoteFile) (isNil r.1)]⟩)

/-- One `d.Client.Write(remoteFile, data, 0644)` (line 129). -/
def dav.clientWrite (d : dav σ ε) (remoteFile : String) (data : Bytes) (w : World σ ε) :
    Option ε × World σ ε :=
  let r := d.Client.Write remoteFile data 0o644 w.state
  (r.1, ⟨r.2, w.trace ++ [Event.attempt d.side (Op.Write remoteFile data) r.1.isNone]⟩)

/-- One `d.Client.Remove(remoteFile)` (line 107). -/
def dav.clientRemove (d : dav σ ε) (remoteFile : String) (w : World σ ε) :
    Option ε × World σ ε :=
  let r := d.Client.Remove remoteFile w.state
  (r.1, ⟨r.2, w.trace ++ [Event.attempt d.side (Op.Remove remoteFile) r.1.isNone]⟩)

/-- The loop of lines 45-50 with `n` iterations left, and line 51.  `err` is the variable
declared at line 44.  The `:=` of line 46 declares new variables `files` and `err` inside the
loop body, so the outer `err` is never assigned. -/
def dav.ReadDir.loop (d : dav σ ε) (remoteDir : String) :
    Nat → Option ε → World σ ε → (List FileInfo × Option ε) × World σ ε
  | 0, err, w => (([], err), w)
  | n + 1, err, w =>
    match d.clientReadDir remoteDir w with
    | (.ok files, w') => ((files, none), w')
    | (.error _, w') => dav.ReadDir.loop d remoteDir n err w'

/-- Lines 43-52. -/
def dav.ReadDir (d : dav σ ε) (remoteDir : String) (w : World σ ε) :
    (List FileInfo × Option ε) × World σ ε :=
  dav.ReadDir.loop d remoteDir 3 none (w.log (Event.call d.side (Op.ReadDir remoteDir)))

/-- The loop of lines 106-111 with `n` iterations left, and line 112.  Line 107 assigns the
variable `err` of line 105. -/
def dav.RemoveFile.loop (d : dav σ ε) (remoteFile : String) :
    Nat → Option ε → World σ ε → Option ε × World σ ε
  | 0, err, w => (err, w)
  | n + 1, _, w =>
    match d.clientRemove remoteFile w with
    | (none, w') => (none, w')
    | (some e, w') => dav.RemoveFile.loop d remoteFile n (some e) w'

/-- Lines 104-113. -/
def dav.RemoveFile (d : dav σ ε) (remoteFile : String) (w : World σ ε) :
    Option ε × World σ ε :=
  dav.RemoveFile.loop d remoteFile 3 none (w.log (Event.call d.side (Op.Remove remoteFile)))

/-- The loop of lines 117-122 with `n` iterations left, and line 123.  As in `ReadDir`, the
`:=` of line 118 shadows the `err` of line 116, which is never assigned. -/
def dav.Read.loop (d : dav σ ε) (remoteFile : String) :
    Nat → Option ε → World σ ε → (Bytes × Option ε) × World σ ε
  | 0, err, w => (([], err), w)
  | n + 1, err, w =>
    match d.clientRead remoteFile w with
    | (.ok data, w') => ((data, none), w')
    | (.error _, w') => dav.Read.loop d remoteFile n err w'

/-- Lines 115-124. -/
def dav.Read (d : dav σ ε) (remoteFile : String) (w : World σ ε) :
    (Bytes × Option ε) × World σ ε :=
  dav.Read.loop d remoteFile 3 none (w.log (Event.call d.side (Op.Read remoteFile)))

/-- The loop of lines 128-133 with `n` iterations left, and line 134.  Line 129 assigns the
variable `err` of line 127. -/
def dav.Write.loop (d : dav σ ε) (remoteFile : String) (data : Bytes) :
    Nat → Option ε → World σ ε → Option ε × World σ ε
  | 0, err, w => (err, w)
  | n + 1, _, w =>
    match d.clientWrite remoteFile data w with
    | (none, w') => (none, w')
    | (some e, w') => dav.Write.loop d remoteFile data n (some e) w'

/-- Lines 126-135. -/
def dav.Write (d : dav σ ε) (remoteFile : String) (data : Bytes) (w : World σ ε) :
    Option ε × World σ ε :=
  dav.Write.loop d remoteFile data 3 none (w.log (Event.call d.side (Op.Write remoteFile data)))

end RemoteClient

/-! ## Reading the retry contract: the outcomes a call would meet -/

/-- The transport state after `n` consecutive calls `f`. -/
def nthState {σ α : Type} (f : σ → α × σ) : Nat → σ → σ
  | 0, s => s
  | n + 1, s => nthState f n (f s).2

/-- The outcome the `n`-th (from 0) of consecutive calls `f` gets, starting in state `s`. -/
def nthOutcome {σ α : Type} (f : σ → α × σ) (n : Nat) (s : σ) : α :=
  (f (nthState f n s)).1

/-- What a retrying method adds to the trace when its attempts `0 .. k-1` fail and attempt `k`
succeeds: its call, `k` failed attempts, one successful attempt, nothing more. -/
def successTrace {ε : Type} (side : Side) (op : Op) (k : Nat) : List (Event ε) :=
  Event.call side op :: (List.replicate k (Event.attempt side op false)
    ++ [Event.attempt side op true])

/-- What a retrying method adds to the trace when no attempt succeeds: its call and three
failed attempts. -/
def failureTrace {ε : Type} (side : Side) (op : Op) : List (Event ε) :=
  Event.call side op :: List.replicate 3 (Event.attempt side op false)

/-- The number of underlying `Client` calls recorded in a trace. -/
def attempts {ε : Type} : List (Event ε) → Nat
  | [] => 0
  | Event.attempt _ _ _ :: rest => attempts rest + 1
  | _ :: rest => attempts rest

/-! ## Tree Lister (`ListFiles`, lines 54-74) -/

section TreeLister
variable {σ ε : Type}

/-- The loop of lines 68-70: every entry of `subDirList` is written into `fileList`. -/
def FileList.merge : FileList → List (String × FileInfo) → FileList
  | fileList, [] => fileList
  | fileList, (k, v) :: rest => FileList.merge (fileList.set k v) rest

/-- What `ListFiles` returns, `(FileList, error)`, and the world it leaves.  The map may be
nil: `none`. -/
abbrev Listing (σ ε : Type) := (Option FileList × Option ε) × World σ ε

/-- The loop of lines 60-72 over the remaining `files`, and line 73.  `recurse` is the call
`d.ListFiles` of line 64, `err` the variable of line 56.  `none` is a recursion that did not
come back. -/
def dav.ListFiles.loop (recurse : String → World σ ε → Option (Listing σ ε))
    (remoteDir : String) (err : Option ε) :
    List FileInfo → FileList → World σ ε → Option (Listing σ ε)
  | [], fileList, w => some ((some fileList, err), w)
  | file :: rest, fileList, w =>
    let filePath := remoteDir ++ file.Name
    let fileList := fileList.set filePath file
    if file.IsDir then
      match recurse (filePath ++ "/") w with
      | none => none
      | some ((_, some err'), w') => some ((none, some err'), w')
      | some ((subDirList, none), w') =>
        dav.ListFiles.loop recurse remoteDir err rest
          (fileList.merge (subDirList.getD [])) w'
    else
      dav.ListFiles.loop recurse remoteDir err rest fileList w

/-- Lines 54-74.  The recursion follows the remote tree, which the code does not bound:
`fuel` bounds the depth of the calls, and `none` is the answer when it runs out. -/
def dav.ListFiles (d : dav σ ε) : Nat → String → World σ ε → Option (Listing σ ε)
  | 0, _, _ => none
  | fuel + 1, remoteDir, w =>
    match d.ReadDir remoteDir w with
    | ((_, some err), w') => some ((none, some err), w')
    | ((files, none), w') =>
      dav.ListFiles.loop (dav.ListFiles d fuel) remoteDir none files [] w'

end TreeLister

/-! ## Reconciler (`main`, lines 154-210) -/

section Reconciler
variable {σ ε : Type}

/-- The read-then-write of lines 175-185, which lines 189-199 repeat. -/
def main.transfer (oClient tClient : dav σ ε) (v : String) (w : World σ ε) : World σ ε :=
  match oClient.Read v w with
  | ((_, some err), w) => w.print (Line.errReading v err)
  | ((data, none), w) =>
    match tClient.Write v data w with
    | (some err, w) => w.print (Line.errWriting v err)
    | (none, w) => w.print (Line.written v)

/-- The loop of lines 173-186. -/
def main.addLoop (oClient tClient : dav σ ε) : List String → World σ ε → World σ ε
  | [], w => w
  | v :: rest, w =>
    main.addLoop oClient tClient rest
      (main.transfer oClient tClient v (w.print (Line.addFile v)))

/-- The loop of lines 187-200. -/
def main.updateLoop (oClient tClient : dav σ ε) : List String → World σ ε → World σ ε
  | [], w => w
  | v :: rest, w =>
    main.updateLoop oClient tClient rest
      (main.transfer oClient tClient v (w.print (Line.updateFile v)))

/-- The loop of lines 201-209. -/
def main.removeLoop (tClient : dav σ ε) : List String → World σ ε → World σ ε
  | [], w => w
  | v :: rest, w =>
    match tClient.RemoveFile v (w.print (Line.removeFile v)) with
    | (some err, w) => main.removeLoop tClient rest (w.print (Line.errRemoving v err))
    | (none, w) => main.removeLoop tClient rest (w.print (Line.removed v))

/-- The three reconcile loops of `main`, lines 173-209, on a given plan. -/
def main.reconcile (oClient tClient : dav σ ε)
    (addFileList updateFileList removeFileList : List String) (w : World σ ε) : World σ ε :=
  main.removeLoop tClient removeFileList
    (main.updateLoop oClient tClient updateFileList
      (main.addLoop oClient tClient addFileList w))

/-- Lines 154-210, from the two connected clients on (reading `config.json` is left out).
`none` is a listing that did not come back, or the nil dereference in `CompareFiles`. -/
def main (origin target : Client σ ε) (fuel : Nat) (w : World σ ε) : Option (World σ ε) :=
  let oClient : dav σ ε := ⟨Side.origin, origin⟩
  match oClient.ListFiles fuel "/" (w.print Line.listOrigin) with
  | none => none
  | some ((_, some _), w) => some (w.print Line.cantRead)
  | some ((oriFileList, none), w) =>
    let tClient : dav σ ε := ⟨Side.target, target⟩
    match tClient.ListFiles fuel "/" (w.print Line.listTarget) with
    | none => none
    | some ((_, some _), w) => some (w.print Line.cantRead)
    | some ((tarFileList, none), w) =>
      match CompareFiles (oriFileList.getD []) (tarFileList.getD []) with
      | none => none
      | some (addFileList, updateFileList, removeFileList) =>
        some (main.reconcile oClient tClient addFileList updateFileList removeFileList w)

/-- The calls of `dav` methods recorded in a trace, in order. -/
def calls : List (Event ε) → List (Side × Op)
  | [] => []
  | Event.call s m :: rest => (s, m) :: calls rest
  | _ :: rest => calls rest

/-- The path of a `Read` call through the `dav` of the given side. -/
def readPath (side : Side) : Side × Op → Option String
  | (s, Op.Read p) => if s = side then some p else none
  | _ => none

/-- The path of a `RemoveFile` call through the `dav` of the given side. -/
def removePath (side : Side) : Side × Op → Option String
  | (s, Op.Remove p) => if s = side then some p else none
  | _ => none

/-- The paths of the `Read` calls made through the `dav` of one side, in order. -/
def readsOf (side : Side) (t : List (Event ε)) : List String :=
  (calls t).filterMap (readPath side)

/-- The paths of the `RemoveFile` calls made through the `dav` of one side, in order. -/
def removesOf (side : Side) (t : List (Event ε)) : List String :=
  (calls t).filterMap (removePath side)

end Reconciler

/-! ## Remote trees -/

/-- A node of a remote tree: a file, or a directory with its children.  The metadata of a
node is its name, size and modification time. -/
inductive Node
  | file (Name : String) (Size ModTime : Int)
  | dir (Name : String) (Size ModTime : Int) (children : List Node)

/-- The `fs.FileInfo` a listing shows for a node. -/
def Node.info : Node → FileInfo
  | .file n s m => ⟨n, s, m, false⟩
  | .dir n s m _ => ⟨n, s, m, true⟩

/-- The name of a node. -/
def Node.name : Node → String
  | .file n _ _ => n
  | .dir n _ _ _ => n

mutual
/-- The number of nested listings below a node. -/
def Node.depth : Node → Nat
  | .file _ _ _ => 0
  | .dir _ _ _ kids => depthList kids + 1
/-- The number of nested listings below the nodes of a directory. -/
def depthList : List Node → Nat
  | [] => 0
  | k :: ks => max k.depth (depthList ks)
end

mutual
/-- A node and its descendants, each with the names on the path to it and its metadata. -/
def Node.descendants : Node → List (List String × FileInfo)
  | .file n s m => [([n], ⟨n, s, m, false⟩)]
  | .dir n s m kids =>
    ([n], ⟨n, s, m, true⟩) :: (descendantsList kids).map (fun e => (n :: e.1, e.2))
/-- The descendants of a directory with the given children. -/
def descendantsList : List Node → List (List String × FileInfo)
  | [] => []
  | k :: ks => k.descendants ++ descendantsList ks
end

/-- Names joined by the separator. -/
def joinPath : List String → String
  | [] => ""
  | [n] => n
  | n :: m :: ns => n ++ "/" ++ joinPath (m :: ns)


/-- Listing the directory `remoteDir` succeeds, in every state of the transport: one of the
first three consecutive `Client.ReadDir` calls answers, and the first that does answers with
the nodes `kids`. -/
def Lists {σ ε : Type} (c : Client σ ε) (remoteDir : String) (kids : List Node) : Prop :=
  ∀ s, ∃ k, k < 3 ∧ (∀ j, j < k → isNil (nthOutcome (c.ReadDir remoteDir) j s) = false) ∧
    nthOutcome (c.ReadDir remoteDir) k s = .ok (kids.map Node.info)

mutual
/-- Every directory at or below a node that lives in `remoteDir` is listed by the
transport. -/
def Node.Served {σ ε : Type} (c : Client σ ε) : String → Node → Prop
  | _, .file _ _ _ => True
  | remoteDir, .dir n _ _ kids =>
    Lists c (remoteDir ++ n ++ "/") kids ∧ ServedList c (remoteDir ++ n ++ "/") kids
/-- Every directory below the nodes `kids` of `remoteDir` is listed by the transport. -/
def ServedList {σ ε : Type} (c : Client σ ε) : String → List Node → Prop
  | _, [] => True
  | remoteDir, k :: ks => k.Served c remoteDir ∧ ServedList c remoteDir ks
end

mutual
/-- Names are base names (no separator inside) and the children of a directory have distinct
names, at and below a node. -/
def Node.WF : Node → Prop
  | .file n _ _ => '/' ∉ n.data
  | .dir n _ _ kids => '/' ∉ n.data ∧ WFList kids
/-- The nodes of one directory: each well formed, with distinct names. -/
def WFList : List Node → Prop
  | [] => True
  | k :: ks => k.WF ∧ (∀ m, m ∈ ks → m.name ≠ k.name) ∧ WFList ks
end

mutual
/-- The listings a remote tree answers with: for every directory its path and the metadata
of its children. -/
def Node.listings : String → Node → List (String × List FileInfo)
  | _, .file _ _ _ => []
  | remoteDir, .dir n _ _ kids =>
    (remoteDir ++ n ++ "/", kids.map Node.info) :: listingsList (remoteDir ++ n ++ "/") kids
/-- The listings below the nodes of one directory. -/
def listingsList : String → List Node → List (String × List FileInfo)
  | _, [] => []
  | remoteDir, k :: ks => k.listings remoteDir ++ listingsList remoteDir ks
end

/-- The answer of a server to a listing request, from its table of listings. -/
def lookupListing : List (String × List FileInfo) → String → Option (List FileInfo)
  | [], _ => none
  | (p, l) :: rest, remoteDir => if p = remoteDir then some l else lookupListing rest remoteDir

mutual
/-- The entries a node of the directory `remoteDir` stands for in a listing of the tree, in
the order the listing meets them. -/
def Node.entries : String → Node → FileList
  | remoteDir, .file n s m => [(remoteDir ++ n, ⟨n, s, m, false⟩)]
  | remoteDir, .dir n s m kids =>
    (remoteDir ++ n, ⟨n, s, m, true⟩) :: entriesList (remoteDir ++ n ++ "/") kids
/-- The entries the nodes of the directory `remoteDir` stand for. -/
def entriesList : String → List Node → FileList
  | _, [] => []
  | remoteDir, k :: ks => k.entries remoteDir ++ entriesList remoteDir ks
end

/-- Whether a key ends with the separator. -/
def endsWithSeparator (k : String) : Prop := k.data.getLast? = some '/'

/-- Decidability of `endsWithSeparator`. -/
instance (k : String) : Decidable (endsWithSeparator k) := by
  unfold endsWithSeparator
  infer_instance

/-- Every key of the map is a path below `remoteDir` that ends with the name of its entry. -/
def KeysUnder (remoteDir : String) (fl : FileList) : Prop :=
  ∀ k v, (k, v) ∈ fl → ∃ mid : String, k = remoteDir ++ mid ++ v.Name

/-- The key is `remoteDir`, then `name`, then nothing or a separator and more. -/
def KeyOf (remoteDir name key : String) : Prop :=
  ∃ y : String, key = remoteDir ++ name ++ y ∧ (y.data = [] ∨ ∃ z, y.data = '/' :: z)

/-! ## Concrete transports -/

/-- The listing of `exampleTree` from the root `/`. -/
def exampleListing : FileList :=
  [("/a", ⟨"a", 0, 100, true⟩), ("/a/b.txt", ⟨"b.txt", 3, 101, false⟩),
   ("/a/c", ⟨"c", 0, 102, true⟩), ("/a/c/d.txt", ⟨"d.txt", 5, 103, false⟩)]

/-- A source tree: `foo.txt` is newer than on the target, `a.txt` is only here. -/
def exampleOrigin : FileList :=
  [("/foo.txt", ⟨"foo.txt", 10, 2, false⟩), ("/a.txt", ⟨"a.txt", 1, 1, false⟩)]

/-- A target tree: `foo.txt` is older than on the source, `old.txt` is only here. -/
def exampleTarget : FileList :=
  [("/foo.txt", ⟨"foo.txt", 10, 1, false⟩), ("/old.txt", ⟨"old.txt", 4, 1, false⟩)]

/-- A transport that serves the remote tree with root path `root` and children `kids`; it
answers every listing of a directory of the tree and refuses everything else. -/
def treeServer (root : String) (kids : List Node) : Client Unit String where
  ReadDir := fun remoteDir s =>
    match lookupListing ((root, kids.map Node.info) :: listingsList root kids) remoteDir with
    | some l => (.ok l, s)
    | none => (.error "not found", s)
  Read := fun _ s => (.error "not found", s)
  Write := fun _ _ _ s => (some "read only", s)
  Remove := fun _ s => (some "read only", s)

/-- The remote tree with the files `/a/b.txt` and `/a/c/d.txt`, below the root. -/
def exampleTree : List Node :=
  [.dir "a" 0 100 [.file "b.txt" 3 101, .dir "c" 0 102 [.file "d.txt" 5 103]]]

/-- A transport that accepts every call. -/
def accepting : Client Unit String where
  ReadDir := fun _ s => (.ok [], s)
  Read := fun _ s => (.ok [], s)
  Write := fun _ _ _ s => (none, s)
  Remove := fun _ s => (none, s)

/-- A transport that lists the root as one directory `a` and fails every other call. -/
def brokenSubdir : Client Unit String where
  ReadDir := fun remoteDir s =>
    if remoteDir = "/" then (.ok [⟨"a", 0, 100, true⟩], s) else (.error "unreachable", s)
  Read := fun _ s => (.error "unreachable", s)
  Write := fun _ _ _ s => (some "unreachable", s)
  Remove := fun _ s => (some "unreachable", s)

/-- A transport whose every call fails.  It has no state. -/
def unreachable : Client Unit String where
  ReadDir := fun _ s => (.error "unreachable", s)
  Read := fun _ s => (.error "unreachable", s)
  Write := fun _ _ _ s => (some "unreachable", s)
  Remove := fun _ s => (some "unreachable", s)

/-- A transport whose first two calls fail and whose later calls succeed.  Its state is the
number of calls made so far. -/
def flaky : Client Nat String where
  ReadDir := fun _ n =>
    (if n < 2 then .error "timeout" else .ok [⟨"a.txt", 10, 0, false⟩], n + 1)
  Read := fun _ n => (if n < 2 then .error "timeout" else .ok [104, 105], n + 1)
  Write := fun _ _ _ n => (if n < 2 then some "timeout" else none, n + 1)
  Remove := fun _ n => (if n < 2 then some "timeout" else none, n + 1)

/-- A transport whose calls fail with the number of the call as the error value. -/
def counting : Client Nat Nat where
  ReadDir := fun _ n => (.error (n + 1), n + 1)
  Read := fun _ n => (.error (n + 1), n + 1)
  Write := fun _ _ _ n => (some (n + 1), n + 1)
  Remove := fun _ n => (some (n + 1), n + 1)

/-! ## Differ: lemmas -/

theorem inList_iff (l : FileList) (item : String) :
    inList l item = true ↔ item ∈ l.keys := by
  induction l with
  | nil => simp [inList, FileList.keys]
  | cons hd tl ih =>
    obtain ⟨k, v⟩ := hd
    by_cases h : k = item
    · simp [inList, FileList.keys, h]
    · have h' : ¬ item = k := fun e => h e.symm
      simp only [inList, h, if_false, ih]
      simp [FileList.keys, h']

theorem get_isSome_of_inList (l : FileList) (item : String) (h : inList l item = true) :
    ∃ v, l.get item = some v := by
  induction l with
  | nil => simp [inList] at h
  | cons hd tl ih =>
    obtain ⟨k, v⟩ := hd
    by_cases hk : k = item
    · exact ⟨v, by simp [FileList.get, hk]⟩
    · simp only [inList, hk, if_false] at h
      obtain ⟨v', hv'⟩ := ih h
      exact ⟨v', by simp [FileList.get, hk, hv']⟩

theorem get_eq_of_mem (l : FileList) (hn : l.keys.Nodup) (k : String) (v : FileInfo)
    (h : (k, v) ∈ l) : l.get k = some v := by
  induction l with
  | nil => simp at h
  | cons hd tl ih =>
    obtain ⟨k', v'⟩ := hd
    simp only [FileList.keys, List.map_cons, List.nodup_cons] at hn
    rcases List.mem_cons.mp h with h | h
    · cases h
      simp [FileList.get]
    · have hne : k' ≠ k := by
        intro e
        apply hn.1
        rw [e]
        exact List.mem_map_of_mem Prod.fst h
      simp only [FileList.get, hne, if_false]
      exact ih hn.2 h

theorem mem_keys_of_get (l : FileList) (k : String) (v : FileInfo) (h : l.get k = some v) :
    k ∈ l.keys := by
  induction l with
  | nil => simp [FileList.get] at h
  | cons x xs ih =>
    obtain ⟨k', v'⟩ := x
    by_cases hk : k' = k
    · simp [FileList.keys, hk]
    · simp only [FileList.get, hk, if_false] at h
      simp only [FileList.keys, List.map_cons, List.mem_cons]
      exact Or.inr (ih h)

theorem oriLoop_spec (T : FileList) (rest : List (String × FileInfo)) :
    ∀ a u : List String, ∃ a' u', CompareFiles.oriLoop T rest a u = some (a', u') ∧
      (∀ P, P ∈ a' ↔ P ∈ a ∨ ∃ v, (P, v) ∈ rest ∧ inList T P = false) ∧
      (∀ P, P ∈ u' ↔ P ∈ u ∨ ∃ v tv, (P, v) ∈ rest ∧ T.get P = some tv ∧
        (v.Size ≠ tv.Size ∨ tv.ModTime < v.ModTime)) := by
  induction rest with
  | nil =>
    intro a u
    exact ⟨a, u, rfl, by simp, by simp⟩
  | cons hd tl ih =>
    obtain ⟨oName, oFile⟩ := hd
    intro a u
    cases hin : inList T oName with
    | false =>
      obtain ⟨a', u', he, ha, hu⟩ := ih (a ++ [oName]) u
      refine ⟨a', u', by simp [CompareFiles.oriLoop, hin, he], ?_, ?_⟩
      · intro P
        rw [ha P]
        constructor
        · rintro (h | ⟨v, hv, hP⟩)
          · rcases List.mem_append.mp h with h | h
            · exact Or.inl h
            · have hP : P = oName := by simpa using h
              exact Or.inr ⟨oFile, by simp [hP], by rw [hP]; exact hin⟩
          · exact Or.inr ⟨v, List.mem_cons_of_mem _ hv, hP⟩
        · rintro (h | ⟨v, hv, hP⟩)
          · exact Or.inl (List.mem_append_left _ h)
          · rcases List.mem_cons.mp hv with h | h
            · have hP' : P = oName := (Prod.mk.inj h).1
              exact Or.inl (by simp [hP'])
            · exact Or.inr ⟨v, h, hP⟩
      · intro P
        rw [hu P]
        constructor
        · rintro (h | ⟨v, tv, hv, hg, hc⟩)
          · exact Or.inl h
          · exact Or.inr ⟨v, tv, List.mem_cons_of_mem _ hv, hg, hc⟩
        · rintro (h | ⟨v, tv, hv, hg, hc⟩)
          · exact Or.inl h
          · rcases List.mem_cons.mp hv with h | h
            · have hP' : P = oName := (Prod.mk.inj h).1
              have hw : inList T P = true := (inList_iff T P).mpr (mem_keys_of_get T P tv hg)
              rw [hP', hin] at hw
              exact absurd hw (by simp)
            · exact Or.inr ⟨v, tv, h, hg, hc⟩
    | true =>
      obtain ⟨tFile, htF⟩ := get_isSome_of_inList T oName hin
      by_cases hc : oFile.Size ≠ tFile.Size ∨ tFile.ModTime < oFile.ModTime
      · obtain ⟨a', u', he, ha, hu⟩ := ih a (u ++ [oName])
        have hcb : (oFile.Size != tFile.Size || After oFile.ModTime tFile.ModTime) = true := by
          rcases hc with h | h
          · simp [h]
          · simp [After, h]
        refine ⟨a', u', by simp only [CompareFiles.oriLoop, hin, htF]; simp [hcb, he], ?_, ?_⟩
        · intro P
          rw [ha P]
          constructor
          · rintro (h | ⟨v, hv, hP⟩)
            · exact Or.inl h
            · exact Or.inr ⟨v, List.mem_cons_of_mem _ hv, hP⟩
          · rintro (h | ⟨v, hv, hP⟩)
            · exact Or.inl h
            · rcases List.mem_cons.mp hv with h | h
              · have hP' : P = oName := (Prod.mk.inj h).1
                rw [hP', hin] at hP
                exact absurd hP (by simp)
              · exact Or.inr ⟨v, h, hP⟩
        · intro P
          rw [hu P]
          constructor
          · rintro (h | ⟨v, tv, hv, hg, hc'⟩)
            · rcases List.mem_append.mp h with h | h
              · exact Or.inl h
              · have hP : P = oName := by simpa using h
                exact Or.inr ⟨oFile, tFile, by simp [hP], by rw [hP]; exact htF, hc⟩
            · exact Or.inr ⟨v, tv, List.mem_cons_of_mem _ hv, hg, hc'⟩
          · rintro (h | ⟨v, tv, hv, hg, hc'⟩)
            · exact Or.inl (List.mem_append_left _ h)
            · rcases List.mem_cons.mp hv with h | h
              · have hP' : P = oName := (Prod.mk.inj h).1
                exact Or.inl (by simp [hP'])
              · exact Or.inr ⟨v, tv, h, hg, hc'⟩
      · obtain ⟨a', u', he, ha, hu⟩ := ih a u
        have hcb : (oFile.Size != tFile.Size || After oFile.ModTime tFile.ModTime) = false := by
          push_neg at hc
          simp [After, hc.1, hc.2]
        refine ⟨a', u', by simp only [CompareFiles.oriLoop, hin, htF]; simp [hcb, he], ?_, ?_⟩
        · intro P
          rw [ha P]
          constructor
          · rintro (h | ⟨v, hv, hP⟩)
            · exact Or.inl h
            · exact Or.inr ⟨v, List.mem_cons_of_mem _ hv, hP⟩
          · rintro (h | ⟨v, hv, hP⟩)
            · exact Or.inl h
            · rcases List.mem_cons.mp hv with h | h
              · have hP' : P = oName := (Prod.mk.inj h).1
                rw [hP', hin] at hP
                exact absurd hP (by simp)
              · exact Or.inr ⟨v, h, hP⟩
        · intro P
          rw [hu P]
          constructor
          · rintro (h | ⟨v, tv, hv, hg, hc'⟩)
            · exact Or.inl h
            · exact Or.inr ⟨v, tv, List.mem_cons_of_mem _ hv, hg, hc'⟩
          · rintro (h | ⟨v, tv, hv, hg, hc'⟩)
            · exact Or.inl h
            · rcases List.mem_cons.mp hv with h | h
              · have hP' : P = oName := (Prod.mk.inj h).1
                have hv' : v = oFile := (Prod.mk.inj h).2
                rw [hP', htF] at hg
                cases hg
                rw [hv'] at hc'
                exact absurd hc' hc
              · exact Or.inr ⟨v, tv, h, hg, hc'⟩

theorem tarLoop_spec (S : FileList) (rest : List (String × FileInfo)) :
    ∀ (r : List String) (P : String), P ∈ CompareFiles.tarLoop S rest r ↔
      P ∈ r ∨ (P ∈ FileList.keys rest ∧ inList S P = false) := by
  induction rest with
  | nil => intro r P; simp [CompareFiles.tarLoop, FileList.keys]
  | cons hd tl ih =>
    obtain ⟨tName, tFile⟩ := hd
    intro r P
    have hk : P ∈ FileList.keys ((tName, tFile) :: tl) ↔ P = tName ∨ P ∈ FileList.keys tl := by
      simp [FileList.keys]
    rw [hk]
    cases hin : inList S tName with
    | false =>
      have he : CompareFiles.tarLoop S ((tName, tFile) :: tl) r
          = CompareFiles.tarLoop S tl (r ++ [tName]) := by
        simp [CompareFiles.tarLoop, hin]
      rw [he, ih]
      constructor
      · rintro (h | ⟨h1, h2⟩)
        · rcases List.mem_append.mp h with h | h
          · exact Or.inl h
          · have hP : P = tName := by simpa using h
            exact Or.inr ⟨Or.inl hP, by rw [hP]; exact hin⟩
        · exact Or.inr ⟨Or.inr h1, h2⟩
      · rintro (h | ⟨h1 | h1, h2⟩)
        · exact Or.inl (List.mem_append_left _ h)
        · exact Or.inl (by simp [h1])
        · exact Or.inr ⟨h1, h2⟩
    | true =>
      have he : CompareFiles.tarLoop S ((tName, tFile) :: tl) r
          = CompareFiles.tarLoop S tl r := by
        simp [CompareFiles.tarLoop, hin]
      rw [he, ih]
      constructor
      · rintro (h | ⟨h1, h2⟩)
        · exact Or.inl h
        · exact Or.inr ⟨Or.inr h1, h2⟩
      · rintro (h | ⟨h1 | h1, h2⟩)
        · exact Or.inl h
        · rw [h1, hin] at h2
          exact absurd h2 (by simp)
        · exact Or.inr ⟨h1, h2⟩

/-- C1: `CompareFiles` returns, and classifies a path as add exactly when it is a key of the
source only, as update exactly when it is a key of both and the sizes differ or the source's
modification time is strictly after the target's, and as remove exactly when it is a key of the
target only. -/
theorem CompareFiles_classifies (S T : FileList) (hS : S.keys.Nodup) :
    ∃ A U R, CompareFiles S T = some (A, U, R) ∧
      (∀ P, P ∈ A ↔ P ∈ S.keys ∧ P ∉ T.keys) ∧
      (∀ P, P ∈ U ↔ P ∈ S.keys ∧ P ∈ T.keys ∧ ∃ s t, S.get P = some s ∧ T.get P = some t ∧
        (s.Size ≠ t.Size ∨ t.ModTime < s.ModTime)) ∧
      (∀ P, P ∈ R ↔ P ∈ T.keys ∧ P ∉ S.keys) := by
  obtain ⟨A, U, he, hA, hU⟩ := oriLoop_spec T S [] []
  refine ⟨A, U, CompareFiles.tarLoop S T [], by simp [CompareFiles, he], ?_, ?_, ?_⟩
  · intro P
    rw [hA P]
    constructor
    · rintro (h | ⟨v, hv, hP⟩)
      · simp at h
      · refine ⟨List.mem_map_of_mem Prod.fst hv, fun hin => ?_⟩
        rw [(inList_iff T P).mpr hin] at hP
        exact absurd hP (by simp)
    · rintro ⟨h1, h2⟩
      obtain ⟨⟨k, v⟩, hv, hk⟩ := List.mem_map.mp h1
      simp only at hk
      subst hk
      refine Or.inr ⟨v, hv, ?_⟩
      cases hin : inList T k with
      | false => rfl
      | true => exact absurd ((inList_iff T k).mp hin) h2
  · intro P
    rw [hU P]
    constructor
    · rintro (h | ⟨v, tv, hv, hg, hc⟩)
      · simp at h
      · exact ⟨List.mem_map_of_mem Prod.fst hv, mem_keys_of_get T P tv hg, v, tv,
          get_eq_of_mem S hS P v hv, hg, hc⟩
    · rintro ⟨h1, _, s, t, hs, ht, hc⟩
      obtain ⟨⟨k, v⟩, hv, hk⟩ := List.mem_map.mp h1
      simp only at hk
      subst hk
      have := get_eq_of_mem S hS k v hv
      rw [hs] at this
      cases this
      exact Or.inr ⟨s, t, hv, ht, hc⟩
  · intro P
    rw [tarLoop_spec S T [] P]
    constructor
    · rintro (h | ⟨h1, h2⟩)
      · simp at h
      · refine ⟨h1, fun hin => ?_⟩
        rw [(inList_iff S P).mpr hin] at h2
        exact absurd h2 (by simp)
    · rintro ⟨h1, h2⟩
      refine Or.inr ⟨h1, ?_⟩
      cases hin : inList S P with
      | false => rfl
      | true => exact absurd ((inList_iff S P).mp hin) h2

/-- C1 on a source with `/foo.txt` (newer) and `/a.txt`, and a target with `/foo.txt` and
`/old.txt`. -/
theorem CompareFiles_classifies_witness :
    ∃ A U R, CompareFiles exampleOrigin exampleTarget = some (A, U, R) ∧
      (∀ P, P ∈ A ↔ P ∈ exampleOrigin.keys ∧ P ∉ exampleTarget.keys) ∧
      (∀ P, P ∈ U ↔ P ∈ exampleOrigin.keys ∧ P ∈ exampleTarget.keys ∧
        ∃ s t, exampleOrigin.get P = some s ∧ exampleTarget.get P = some t ∧
          (s.Size ≠ t.Size ∨ t.ModTime < s.ModTime)) ∧
      (∀ P, P ∈ R ↔ P ∈ exampleTarget.keys ∧ P ∉ exampleOrigin.keys) :=
  CompareFiles_classifies exampleOrigin exampleTarget (by decide)

/-- C2: `CompareFiles` returns three lists that are pairwise disjoint: no path is in two of
`addFList`, `updateFList`, `removeFList`. -/
theorem CompareFiles_disjoint (S T : FileList) :
    ∃ A U R, CompareFiles S T = some (A, U, R) ∧
      (∀ P, ¬ (P ∈ A ∧ P ∈ U)) ∧ (∀ P, ¬ (P ∈ A ∧ P ∈ R)) ∧ (∀ P, ¬ (P ∈ U ∧ P ∈ R)) := by
  obtain ⟨A, U, he, hA, hU⟩ := oriLoop_spec T S [] []
  refine ⟨A, U, CompareFiles.tarLoop S T [], by simp [CompareFiles, he], ?_, ?_, ?_⟩
  · rintro P ⟨h1, h2⟩
    rcases (hA P).mp h1 with h | ⟨v, _, hP⟩
    · simp at h
    · rcases (hU P).mp h2 with h | ⟨_, tv, _, hg, _⟩
      · simp at h
      · rw [(inList_iff T P).mpr (mem_keys_of_get T P tv hg)] at hP
        exact absurd hP (by simp)
  · rintro P ⟨h1, h2⟩
    rcases (hA P).mp h1 with h | ⟨v, hv, _⟩
    · simp at h
    · rcases (tarLoop_spec S T [] P).mp h2 with h | ⟨_, hP⟩
      · simp at h
      · rw [(inList_iff S P).mpr (List.mem_map_of_mem Prod.fst hv)] at hP
        exact absurd hP (by simp)
  · rintro P ⟨h1, h2⟩
    rcases (hU P).mp h1 with h | ⟨v, _, hv, _, _⟩
    · simp at h
    · rcases (tarLoop_spec S T [] P).mp h2 with h | ⟨_, hP⟩
      · simp at h
      · rw [(inList_iff S P).mpr (List.mem_map_of_mem Prod.fst hv)] at hP
        exact absurd hP (by simp)

/-! ## Remote Client: lemmas -/

section RemoteClientLemmas
variable {σ ε : Type}

theorem attempts_append (t u : List (Event ε)) : attempts (t ++ u) = attempts t + attempts u := by
  induction t with
  | nil => simp [attempts]
  | cons e t ih =>
    cases e with
    | attempt side op ok =>
      show attempts (t ++ u) + 1 = attempts t + 1 + attempts u
      omega
    | call side m => exact ih
    | print l => exact ih

theorem attempts_replicate (side : Side) (op : Op) (ok : Bool) (n : Nat) :
    attempts (List.replicate n (Event.attempt side op ok : Event ε)) = n := by
  induction n with
  | zero => simp [attempts]
  | succ n ih => simp [List.replicate_succ, attempts, ih]

theorem ReadDir_loop_ok (d : dav σ ε) (p : String) (err : Option ε) (files : List FileInfo) :
    ∀ (n k : Nat) (w : World σ ε), k < n →
      (∀ j, j < k → isNil (nthOutcome (d.Client.ReadDir p) j w.state) = false) →
      nthOutcome (d.Client.ReadDir p) k w.state = .ok files →
      dav.ReadDir.loop d p n err w = ((files, none),
        ⟨nthState (d.Client.ReadDir p) (k + 1) w.state,
         w.trace ++ (List.replicate k (Event.attempt d.side (Op.ReadDir p) false)
           ++ [Event.attempt d.side (Op.ReadDir p) true])⟩) := by
  intro n
  induction n with
  | zero => intro k w hk; omega
  | succ n ih =>
    intro k w hk hfail hok
    cases k with
    | zero =>
      simp only [nthOutcome, nthState] at hok
      simp only [dav.ReadDir.loop, dav.clientReadDir, hok, isNil, nthState]
      simp
    | succ k =>
      have h0 := hfail 0 (Nat.succ_pos k)
      simp only [nthOutcome, nthState] at h0
      cases hr : (d.Client.ReadDir p w.state).1 with
      | ok fs => rw [hr] at h0; simp [isNil] at h0
      | error e =>
        simp only [dav.ReadDir.loop, dav.clientReadDir, hr, isNil]
        rw [ih k ⟨(d.Client.ReadDir p w.state).2, _⟩ (by omega)
          (fun j hj => by simpa [nthOutcome, nthState] using hfail (j + 1) (by omega))
          (by simpa [nthOutcome, nthState] using hok)]
        simp [nthState, List.replicate_succ]

theorem ReadDir_loop_fail (d : dav σ ε) (p : String) (err : Option ε) :
    ∀ (n : Nat) (w : World σ ε),
      (∀ j, j < n → isNil (nthOutcome (d.Client.ReadDir p) j w.state) = false) →
      dav.ReadDir.loop d p n err w = (([], err),
        ⟨nthState (d.Client.ReadDir p) n w.state,
         w.trace ++ List.replicate n (Event.attempt d.side (Op.ReadDir p) false)⟩) := by
  intro n
  induction n with
  | zero => intro w _; simp [dav.ReadDir.loop, nthState]
  | succ n ih =>
    intro w hfail
    have h0 := hfail 0 (Nat.succ_pos n)
    simp only [nthOutcome, nthState] at h0
    cases hr : (d.Client.ReadDir p w.state).1 with
    | ok fs => rw [hr] at h0; simp [isNil] at h0
    | error e =>
      simp only [dav.ReadDir.loop, dav.clientReadDir, hr, isNil]
      rw [ih ⟨(d.Client.ReadDir p w.state).2, _⟩
        (fun j hj => by simpa [nthOutcome, nthState] using hfail (j + 1) (by omega))]
      simp [nthState, List.replicate_succ]

theorem Read_loop_ok (d : dav σ ε) (p : String) (err : Option ε) (data : Bytes) :
    ∀ (n k : Nat) (w : World σ ε), k < n →
      (∀ j, j < k → isNil (nthOutcome (d.Client.Read p) j w.state) = false) →
      nthOutcome (d.Client.Read p) k w.state = .ok data →
      dav.Read.loop d p n err w = ((data, none),
        ⟨nthState (d.Client.Read p) (k + 1) w.state,
         w.trace ++ (List.replicate k (Event.attempt d.side (Op.Read p) false)
           ++ [Event.attempt d.side (Op.Read p) true])⟩) := by
  intro n
  induction n with
  | zero => intro k w hk; omega
  | succ n ih =>
    intro k w hk hfail hok
    cases k with
    | zero =>
      simp only [nthOutcome, nthState] at hok
      simp only [dav.Read.loop, dav.clientRead, hok, isNil, nthState]
      simp
    | succ k =>
      have h0 := hfail 0 (Nat.succ_pos k)
      simp only [nthOutcome, nthState] at h0
      cases hr : (d.Client.Read p w.state).1 with
      | ok fs => rw [hr] at h0; simp [isNil] at h0
      | error e =>
        simp only [dav.Read.loop, dav.clientRead, hr, isNil]
        rw [ih k ⟨(d.Client.Read p w.state).2, _⟩ (by omega)
          (fun j hj => by simpa [nthOutcome, nthState] using hfail (j + 1) (by omega))
          (by simpa [nthOutcome, nthState] using hok)]
        simp [nthState, List.replicate_succ]

theorem Read_loop_fail (d : dav σ ε) (p : String) (err : Option ε) :
    ∀ (n : Nat) (w : World σ ε),
      (∀ j, j < n → isNil (nthOutcome (d.Client.Read p) j w.state) = false) →
      dav.Read.loop d p n err w = (([], err),
        ⟨nthState (d.Client.Read p) n w.state,
         w.trace ++ List.replicate n (Event.attempt d.side (Op.Read p) false)⟩) := by
  intro n
  induction n with
  | zero => intro w _; simp [dav.Read.loop, nthState]
  | succ n ih =>
    intro w hfail
    have h0 := hfail 0 (Nat.succ_pos n)
    simp only [nthOutcome, nthState] at h0
    cases hr : (d.Client.Read p w.state).1 with
    | ok fs => rw [hr] at h0; simp [isNil] at h0
    | error e =>
      simp only [dav.Read.loop, dav.clientRead, hr, isNil]
      rw [ih ⟨(d.Client.Read p w.state).2, _⟩
        (fun j hj => by simpa [nthOutcome, nthState] using hfail (j + 1) (by omega))]
      simp [nthState, List.replicate_succ]

theorem Write_loop_ok (d : dav σ ε) (p : String) (data : Bytes) :
    ∀ (n k : Nat) (err : Option ε) (w : World σ ε), k < n →
      (∀ j, j < k → nthOutcome (d.Client.Write p data 0o644) j w.state ≠ none) →
      nthOutcome (d.Client.Write p data 0o644) k w.state = none →
      dav.Write.loop d p data n err w = (none,
        ⟨nthState (d.Client.Write p data 0o644) (k + 1) w.state,
         w.trace ++ (List.replicate k (Event.attempt d.side (Op.Write p data) false)
           ++ [Event.attempt d.side (Op.Write p data) true])⟩) := by
  intro n
  induction n with
  | zero => intro k err w hk; omega
  | succ n ih =>
    intro k err w hk hfail hok
    cases k with
    | zero =>
      simp only [nthOutcome, nthState] at hok
      simp only [dav.Write.loop, dav.clientWrite, hok, nthState]
      simp
    | succ k =>
      have h0 := hfail 0 (Nat.succ_pos k)
      simp only [nthOutcome, nthState] at h0
      cases hr : (d.Client.Write p data 0o644 w.state).1 with
      | none => exact absurd hr h0
      | some e =>
        simp only [dav.Write.loop, dav.clientWrite, hr]
        rw [ih k (some e) ⟨(d.Client.Write p data 0o644 w.state).2, _⟩ (by omega)
          (fun j hj => by simpa [nthOutcome, nthState] using hfail (j + 1) (by omega))
          (by simpa [nthOutcome, nthState] using hok)]
        simp [nthState, List.replicate_succ]

theorem Write_loop_fail (d : dav σ ε) (p : String) (data : Bytes) :
    ∀ (n : Nat) (err : Option ε) (w : World σ ε),
      (∀ j, j < n → nthOutcome (d.Client.Write p data 0o644) j w.state ≠ none) →
      dav.Write.loop d p data n err w =
        (if n = 0 then err else nthOutcome (d.Client.Write p data 0o644) (n - 1) w.state,
        ⟨nthState (d.Client.Write p data 0o644) n w.state,
         w.trace ++ List.replicate n (Event.attempt d.side (Op.Write p data) false)⟩) := by
  intro n
  induction n with
  | zero => intro err w _; simp [dav.Write.loop, nthState]
  | succ n ih =>
    intro err w hfail
    have h0 := hfail 0 (Nat.succ_pos n)
    simp only [nthOutcome, nthState] at h0
    cases hr : (d.Client.Write p data 0o644 w.state).1 with
    | none => exact absurd hr h0
    | some e =>
      simp only [dav.Write.loop, dav.clientWrite, hr]
      rw [ih (some e) ⟨(d.Client.Write p data 0o644 w.state).2, _⟩
        (fun j hj => by simpa [nthOutcome, nthState] using hfail (j + 1) (by omega))]
      cases n with
      | zero => simp [nthState, nthOutcome, hr]
      | succ m => simp [nthState, nthOutcome, List.replicate_succ]

theorem RemoveFile_loop_ok (d : dav σ ε) (p : String) :
    ∀ (n k : Nat) (err : Option ε) (w : World σ ε), k < n →
      (∀ j, j < k → nthOutcome (d.Client.Remove p) j w.state ≠ none) →
      nthOutcome (d.Client.Remove p) k w.state = none →
      dav.RemoveFile.loop d p n err w = (none,
        ⟨nthState (d.Client.Remove p) (k + 1) w.state,
         w.trace ++ (List.replicate k (Event.attempt d.side (Op.Remove p) false)
           ++ [Event.attempt d.side (Op.Remove p) true])⟩) := by
  intro n
  induction n with
  | zero => intro k err w hk; omega
  | succ n ih =>
    intro k err w hk hfail hok
    cases k with
    | zero =>
      simp only [nthOutcome, nthState] at hok
      simp only [dav.RemoveFile.loop, dav.clientRemove, hok, nthState]
      simp
    | succ k =>
      have h0 := hfail 0 (Nat.succ_pos k)
      simp only [nthOutcome, nthState] at h0
      cases hr : (d.Client.Remove p w.state).1 with
      | none => exact absurd hr h0
      | some e =>
        simp only [dav.RemoveFile.loop, dav.clientRemove, hr]
        rw [ih k (some e) ⟨(d.Client.Remove p w.state).2, _⟩ (by omega)
          (fun j hj => by simpa [nthOutcome, nthState] using hfail (j + 1) (by omega))
          (by simpa [nthOutcome, nthState] using hok)]
        simp [nthState, List.replicate_succ]

theorem RemoveFile_loop_fail (d : dav σ ε) (p : String) :
    ∀ (n : Nat) (err : Option ε) (w : World σ ε),
      (∀ j, j < n → nthOutcome (d.Client.Remove p) j w.state ≠ none) →
      dav.RemoveFile.loop d p n err w =
        (if n = 0 then err else nthOutcome (d.Client.Remove p) (n - 1) w.state,
        ⟨nthState (d.Client.Remove p) n w.state,
         w.trace ++ List.replicate n (Event.attempt d.side (Op.Remove p) false)⟩) := by
  intro n
  induction n with
  | zero => intro err w _; simp [dav.RemoveFile.loop, nthState]
  | succ n ih =>
    intro err w hfail
    have h0 := hfail 0 (Nat.succ_pos n)
    simp only [nthOutcome, nthState] at h0
    cases hr : (d.Client.Remove p w.state).1 with
    | none => exact absurd hr h0
    | some e =>
      simp only [dav.RemoveFile.loop, dav.clientRemove, hr]
      rw [ih (some e) ⟨(d.Client.Remove p w.state).2, _⟩
        (fun j hj => by simpa [nthOutcome, nthState] using hfail (j + 1) (by omega))]
      cases n with
      | zero => simp [nthState, nthOutcome, hr]
      | succ m => simp [nthState, nthOutcome, List.replicate_succ]

theorem exists_first (P : Nat → Prop) (k : Nat) (h : P k) :
    ∃ m, m ≤ k ∧ P m ∧ ∀ j, j < m → ¬ P j := by
  classical
  exact ⟨Nat.find ⟨k, h⟩, Nat.find_min' _ h, Nat.find_spec ⟨k, h⟩,
    fun j hj => Nat.find_min ⟨k, h⟩ hj⟩

theorem ReadDir_retry (d : dav σ ε) (p : String) (w : World σ ε) :
    (∀ (k : Nat) (files : List FileInfo), k < 3 →
      (∀ j, j < k → isNil (nthOutcome (d.Client.ReadDir p) j w.state) = false) →
      nthOutcome (d.Client.ReadDir p) k w.state = .ok files →
      d.ReadDir p w = ((files, none), ⟨nthState (d.Client.ReadDir p) (k + 1) w.state,
        w.trace ++ successTrace d.side (Op.ReadDir p) k⟩)) ∧
    ((∀ j, j < 3 → isNil (nthOutcome (d.Client.ReadDir p) j w.state) = false) →
      d.ReadDir p w = (([], none), ⟨nthState (d.Client.ReadDir p) 3 w.state,
        w.trace ++ failureTrace d.side (Op.ReadDir p)⟩)) := by
  constructor
  · intro k files hk hfail hok
    unfold dav.ReadDir
    rw [ReadDir_loop_ok d p none files 3 k (w.log (Event.call d.side (Op.ReadDir p))) hk hfail hok]
    simp [successTrace, World.log]
  · intro hfail
    unfold dav.ReadDir
    rw [ReadDir_loop_fail d p none 3 (w.log (Event.call d.side (Op.ReadDir p))) hfail]
    simp [failureTrace, World.log]

theorem Read_retry (d : dav σ ε) (p : String) (w : World σ ε) :
    (∀ (k : Nat) (data : Bytes), k < 3 →
      (∀ j, j < k → isNil (nthOutcome (d.Client.Read p) j w.state) = false) →
      nthOutcome (d.Client.Read p) k w.state = .ok data →
      d.Read p w = ((data, none), ⟨nthState (d.Client.Read p) (k + 1) w.state,
        w.trace ++ successTrace d.side (Op.Read p) k⟩)) ∧
    ((∀ j, j < 3 → isNil (nthOutcome (d.Client.Read p) j w.state) = false) →
      d.Read p w = (([], none), ⟨nthState (d.Client.Read p) 3 w.state,
        w.trace ++ failureTrace d.side (Op.Read p)⟩)) := by
  constructor
  · intro k data hk hfail hok
    unfold dav.Read
    rw [Read_loop_ok d p none data 3 k (w.log (Event.call d.side (Op.Read p))) hk hfail hok]
    simp [successTrace, World.log]
  · intro hfail
    unfold dav.Read
    rw [Read_loop_fail d p none 3 (w.log (Event.call d.side (Op.Read p))) hfail]
    simp [failureTrace, World.log]

theorem Write_retry (d : dav σ ε) (p : String) (data : Bytes) (w : World σ ε) :
    (∀ (k : Nat), k < 3 →
      (∀ j, j < k → nthOutcome (d.Client.Write p data 0o644) j w.state ≠ none) →
      nthOutcome (d.Client.Write p data 0o644) k w.state = none →
      d.Write p data w = (none, ⟨nthState (d.Client.Write p data 0o644) (k + 1) w.state,
        w.trace ++ successTrace d.side (Op.Write p data) k⟩)) ∧
    ((∀ j, j < 3 → nthOutcome (d.Client.Write p data 0o644) j w.state ≠ none) →
      d.Write p data w = (nthOutcome (d.Client.Write p data 0o644) 2 w.state,
        ⟨nthState (d.Client.Write p data 0o644) 3 w.state,
        w.trace ++ failureTrace d.side (Op.Write p data)⟩)) := by
  constructor
  · intro k hk hfail hok
    unfold dav.Write
    rw [Write_loop_ok d p data 3 k none (w.log (Event.call d.side (Op.Write p data))) hk hfail hok]
    simp [successTrace, World.log]
  · intro hfail
    unfold dav.Write
    rw [Write_loop_fail d p data 3 none (w.log (Event.call d.side (Op.Write p data))) hfail]
    simp [failureTrace, World.log]

theorem Write_nil_iff (d : dav σ ε) (p : String) (data : Bytes) (w : World σ ε) :
    ((d.Write p data w).1 = none ↔
      ∃ k, k < 3 ∧ nthOutcome (d.Client.Write p data 0o644) k w.state = none) ∧
    attempts (d.Write p data w).2.trace ≤ attempts w.trace + 3 := by
  by_cases h : ∃ k, k < 3 ∧ nthOutcome (d.Client.Write p data 0o644) k w.state = none
  · obtain ⟨k, hk, hok⟩ := h
    obtain ⟨m, hm, hPm, hmin⟩ :=
      exists_first (fun k => nthOutcome (d.Client.Write p data 0o644) k w.state = none) k hok
    have he := (Write_retry d p data w).1 m (by omega) hmin hPm
    rw [he]
    refine ⟨⟨fun _ => ⟨k, hk, hok⟩, fun _ => rfl⟩, ?_⟩
    simp only [successTrace, attempts_append, attempts, attempts_replicate]
    omega
  · have hfail : ∀ j, j < 3 → nthOutcome (d.Client.Write p data 0o644) j w.state ≠ none :=
      fun j hj hn => h ⟨j, hj, hn⟩
    have he := (Write_retry d p data w).2 hfail
    rw [he]
    refine ⟨⟨fun hn => absurd hn (hfail 2 (by omega)), fun hk => absurd hk h⟩, ?_⟩
    simp only [failureTrace, attempts_append, attempts, attempts_replicate]
    omega

theorem RemoveFile_retry (d : dav σ ε) (p : String) (w : World σ ε) :
    (∀ (k : Nat), k < 3 →
      (∀ j, j < k → nthOutcome (d.Client.Remove p) j w.state ≠ none) →
      nthOutcome (d.Client.Remove p) k w.state = none →
      d.RemoveFile p w = (none, ⟨nthState (d.Client.Remove p) (k + 1) w.state,
        w.trace ++ successTrace d.side (Op.Remove p) k⟩)) ∧
    ((∀ j, j < 3 → nthOutcome (d.Client.Remove p) j w.state ≠ none) →
      d.RemoveFile p w = (nthOutcome (d.Client.Remove p) 2 w.state,
        ⟨nthState (d.Client.Remove p) 3 w.state,
        w.trace ++ failureTrace d.side (Op.Remove p)⟩)) := by
  constructor
  · intro k hk hfail hok
    unfold dav.RemoveFile
    rw [RemoveFile_loop_ok d p 3 k none (w.log (Event.call d.side (Op.Remove p))) hk hfail hok]
    simp [successTrace, World.log]
  · intro hfail
    unfold dav.RemoveFile
    rw [RemoveFile_loop_fail d p 3 none (w.log (Event.call d.side (Op.Remove p))) hfail]
    simp [failureTrace, World.log]

theorem RemoveFile_nil_iff (d : dav σ ε) (p : String) (w : World σ ε) :
    ((d.RemoveFile p w).1 = none ↔
      ∃ k, k < 3 ∧ nthOutcome (d.Client.Remove p) k w.state = none) ∧
    attempts (d.RemoveFile p w).2.trace ≤ attempts w.trace + 3 := by
  by_cases h : ∃ k, k < 3 ∧ nthOutcome (d.Client.Remove p) k w.state = none
  · obtain ⟨k, hk, hok⟩ := h
    obtain ⟨m, hm, hPm, hmin⟩ :=
      exists_first (fun k => nthOutcome (d.Client.Remove p) k w.state = none) k hok
    have he := (RemoveFile_retry d p w).1 m (by omega) hmin hPm
    rw [he]
    refine ⟨⟨fun _ => ⟨k, hk, hok⟩, fun _ => rfl⟩, ?_⟩
    simp only [successTrace, attempts_append, attempts, attempts_replicate]
    omega
  · have hfail : ∀ j, j < 3 → nthOutcome (d.Client.Remove p) j w.state ≠ none :=
      fun j hj hn => h ⟨j, hj, hn⟩
    have he := (RemoveFile_retry d p w).2 hfail
    rw [he]
    refine ⟨⟨fun hn => absurd hn (hfail 2 (by omega)), fun hk => absurd hk h⟩, ?_⟩
    simp only [failureTrace, attempts_append, attempts, attempts_replicate]
    omega

/-- C5, evaluated on the code: on a transport whose attempts fail with the errors 1, 2, 3,
`ReadDir` and `Read` make three attempts and return the nil error, not the third attempt's
error 3; `RemoveFile` on the same transport returns error 3. -/
theorem ReadDir_Read_exhausted_return_nil :
    dav.ReadDir ⟨Side.origin, counting⟩ "/" ⟨0, []⟩
      = (([], none), ⟨3, failureTrace Side.origin (Op.ReadDir "/")⟩) ∧
    dav.Read ⟨Side.origin, counting⟩ "/f" ⟨0, []⟩
      = (([], none), ⟨3, failureTrace Side.origin (Op.Read "/f")⟩) ∧
    dav.RemoveFile ⟨Side.origin, counting⟩ "/f" ⟨0, []⟩
      = (some 3, ⟨3, failureTrace Side.origin (Op.Remove "/f")⟩) := by
  refine ⟨rfl, rfl, rfl⟩

/-- C6: for `ReadDir`, `Read`, `Write` and `RemoveFile` alike, when attempts `0 .. k-1` fail
and attempt `k < 3` succeeds, the method reports success with that attempt's result and has
made exactly `k + 1` underlying calls, none after the success; when the first three attempts
all fail, it has made exactly three underlying calls. -/
theorem retry_exact_attempts (d : dav σ ε) (p : String) (data : Bytes) (w : World σ ε) :
    ((∀ (k : Nat) (files : List FileInfo), k < 3 →
        (∀ j, j < k → isNil (nthOutcome (d.Client.ReadDir p) j w.state) = false) →
        nthOutcome (d.Client.ReadDir p) k w.state = .ok files →
        d.ReadDir p w = ((files, none), ⟨nthState (d.Client.ReadDir p) (k + 1) w.state,
          w.trace ++ successTrace d.side (Op.ReadDir p) k⟩)) ∧
      ((∀ j, j < 3 → isNil (nthOutcome (d.Client.ReadDir p) j w.state) = false) →
        (d.ReadDir p w).2 = ⟨nthState (d.Client.ReadDir p) 3 w.state,
          w.trace ++ failureTrace d.side (Op.ReadDir p)⟩)) ∧
    ((∀ (k : Nat) (bytes : Bytes), k < 3 →
        (∀ j, j < k → isNil (nthOutcome (d.Client.Read p) j w.state) = false) →
        nthOutcome (d.Client.Read p) k w.state = .ok bytes →
        d.Read p w = ((bytes, none), ⟨nthState (d.Client.Read p) (k + 1) w.state,
          w.trace ++ successTrace d.side (Op.Read p) k⟩)) ∧
      ((∀ j, j < 3 → isNil (nthOutcome (d.Client.Read p) j w.state) = false) →
        (d.Read p w).2 = ⟨nthState (d.Client.Read p) 3 w.state,
          w.trace ++ failureTrace d.side (Op.Read p)⟩)) ∧
    ((∀ (k : Nat), k < 3 →
        (∀ j, j < k → nthOutcome (d.Client.Write p data 0o644) j w.state ≠ none) →
        nthOutcome (d.Client.Write p data 0o644) k w.state = none →
        d.Write p data w = (none, ⟨nthState (d.Client.Write p data 0o644) (k + 1) w.state,
          w.trace ++ successTrace d.side (Op.Write p data) k⟩)) ∧
      ((∀ j, j < 3 → nthOutcome (d.Client.Write p data 0o644) j w.state ≠ none) →
        (d.Write p data w).2 = ⟨nthState (d.Client.Write p data 0o644) 3 w.state,
          w.trace ++ failureTrace d.side (Op.Write p data)⟩)) ∧
    ((∀ (k : Nat), k < 3 →
        (∀ j, j < k → nthOutcome (d.Client.Remove p) j w.state ≠ none) →
        nthOutcome (d.Client.Remove p) k w.state = none →
        d.RemoveFile p w = (none, ⟨nthState (d.Client.Remove p) (k + 1) w.state,
          w.trace ++ successTrace d.side (Op.Remove p) k⟩)) ∧
      ((∀ j, j < 3 → nthOutcome (d.Client.Remove p) j w.state ≠ none) →
        (d.RemoveFile p w).2 = ⟨nthState (d.Client.Remove p) 3 w.state,
          w.trace ++ failureTrace d.side (Op.Remove p)⟩)) :=
  ⟨⟨(ReadDir_retry d p w).1, fun h => by rw [(ReadDir_retry d p w).2 h]⟩,
   ⟨(Read_retry d p w).1, fun h => by rw [(Read_retry d p w).2 h]⟩,
   ⟨(Write_retry d p data w).1, fun h => by rw [(Write_retry d p data w).2 h]⟩,
   ⟨(RemoveFile_retry d p w).1, fun h => by rw [(RemoveFile_retry d p w).2 h]⟩⟩

/-- C6 at the scenario of the specification: a `Read` whose transport fails twice and then
succeeds reports success with the bytes of the third attempt after exactly three attempts. -/
theorem retry_exact_attempts_witness :
    dav.Read ⟨Side.origin, flaky⟩ "/f" ⟨0, []⟩ = (([104, 105], none),
      ⟨3, [Event.call Side.origin (Op.Read "/f"),
           Event.attempt Side.origin (Op.Read "/f") false,
           Event.attempt Side.origin (Op.Read "/f") false,
           Event.attempt Side.origin (Op.Read "/f") true]⟩) :=
  (retry_exact_attempts ⟨Side.origin, flaky⟩ "/f" [] ⟨0, []⟩).2.1.1 2 [104, 105] (by decide)
    (fun j hj => by
      have hj' : j = 0 ∨ j = 1 := by omega
      rcases hj' with rfl | rfl <;> rfl)
    rfl

/-- C7: `Write` and `RemoveFile` return nil exactly when one of the first three attempts
succeeds; when all three fail they return the third attempt's error, which is not nil; and
they never make more than three underlying calls. -/
theorem Write_RemoveFile_report (d : dav σ ε) (p : String) (data : Bytes) (w : World σ ε) :
    (((d.Write p data w).1 = none ↔
        ∃ k, k < 3 ∧ nthOutcome (d.Client.Write p data 0o644) k w.state = none) ∧
      ((∀ j, j < 3 → nthOutcome (d.Client.Write p data 0o644) j w.state ≠ none) →
        (d.Write p data w).1 = nthOutcome (d.Client.Write p data 0o644) 2 w.state ∧
        (d.Write p data w).1 ≠ none) ∧
      attempts (d.Write p data w).2.trace ≤ attempts w.trace + 3) ∧
    (((d.RemoveFile p w).1 = none ↔
        ∃ k, k < 3 ∧ nthOutcome (d.Client.Remove p) k w.state = none) ∧
      ((∀ j, j < 3 → nthOutcome (d.Client.Remove p) j w.state ≠ none) →
        (d.RemoveFile p w).1 = nthOutcome (d.Client.Remove p) 2 w.state ∧
        (d.RemoveFile p w).1 ≠ none) ∧
      attempts (d.RemoveFile p w).2.trace ≤ attempts w.trace + 3) := by
  refine ⟨⟨(Write_nil_iff d p data w).1, fun h => ?_, (Write_nil_iff d p data w).2⟩,
    ⟨(RemoveFile_nil_iff d p w).1, fun h => ?_, (RemoveFile_nil_iff d p w).2⟩⟩
  · rw [(Write_retry d p data w).2 h]
    exact ⟨rfl, h 2 (by omega)⟩
  · rw [(RemoveFile_retry d p w).2 h]
    exact ⟨rfl, h 2 (by omega)⟩

/-- C7 at a transport whose three attempts fail with the errors 1, 2, 3: `Write` returns the
third error. -/
theorem Write_RemoveFile_report_witness :
    (dav.Write ⟨Side.target, counting⟩ "/f" [7] ⟨0, []⟩).1 = some 3 ∧
    (dav.Write ⟨Side.target, counting⟩ "/f" [7] ⟨0, []⟩).1 ≠ none :=
  (Write_RemoveFile_report ⟨Side.target, counting⟩ "/f" [7] ⟨0, []⟩).1.2.1
    (fun j hj => by
      have hj' : j = 0 ∨ j = 1 ∨ j = 2 := by omega
      rcases hj' with rfl | rfl | rfl <;> simp [nthOutcome, nthState, counting])

end RemoteClientLemmas

/-! ## Reconciler: lemmas -/

section ReconcilerLemmas
variable {σ ε : Type}

theorem calls_append (t u : List (Event ε)) : calls (t ++ u) = calls t ++ calls u := by
  induction t with
  | nil => simp [calls]
  | cons e t ih =>
    cases e with
    | attempt side op ok => exact ih
    | call side m =>
      show (side, m) :: calls (t ++ u) = (side, m) :: calls t ++ calls u
      rw [ih]; rfl
    | print l => exact ih

theorem calls_ReadDir_loop (d : dav σ ε) (p : String) :
    ∀ (n : Nat) (err : Option ε) (w : World σ ε),
      calls (dav.ReadDir.loop d p n err w).2.trace = calls w.trace := by
  intro n
  induction n with
  | zero => intro err w; rfl
  | succ n ih =>
    intro err w
    simp only [dav.ReadDir.loop, dav.clientReadDir]
    cases hr : (d.Client.ReadDir p w.state).1 with
    | ok v => simp [calls_append, calls]
    | error e => simp [ih, calls_append, calls]

theorem calls_Read_loop (d : dav σ ε) (p : String) :
    ∀ (n : Nat) (err : Option ε) (w : World σ ε),
      calls (dav.Read.loop d p n err w).2.trace = calls w.trace := by
  intro n
  induction n with
  | zero => intro err w; rfl
  | succ n ih =>
    intro err w
    simp only [dav.Read.loop, dav.clientRead]
    cases hr : (d.Client.Read p w.state).1 with
    | ok v => simp [calls_append, calls]
    | error e => simp [ih, calls_append, calls]

theorem calls_Write_loop (d : dav σ ε) (p : String) (data : Bytes) :
    ∀ (n : Nat) (err : Option ε) (w : World σ ε),
      calls (dav.Write.loop d p data n err w).2.trace = calls w.trace := by
  intro n
  induction n with
  | zero => intro err w; rfl
  | succ n ih =>
    intro err w
    simp only [dav.Write.loop, dav.clientWrite]
    cases hr : (d.Client.Write p data 0o644 w.state).1 with
    | none => simp [calls_append, calls]
    | some e => simp [ih, calls_append, calls]

theorem calls_RemoveFile_loop (d : dav σ ε) (p : String) :
    ∀ (n : Nat) (err : Option ε) (w : World σ ε),
      calls (dav.RemoveFile.loop d p n err w).2.trace = calls w.trace := by
  intro n
  induction n with
  | zero => intro err w; rfl
  | succ n ih =>
    intro err w
    simp only [dav.RemoveFile.loop, dav.clientRemove]
    cases hr : (d.Client.Remove p w.state).1 with
    | none => simp [calls_append, calls]
    | some e => simp [ih, calls_append, calls]

theorem calls_ReadDir (d : dav σ ε) (p : String) (w : World σ ε) :
    calls (d.ReadDir p w).2.trace = calls w.trace ++ [(d.side, Op.ReadDir p)] := by
  simp [dav.ReadDir, calls_ReadDir_loop, World.log, calls_append, calls]

theorem calls_Read (d : dav σ ε) (p : String) (w : World σ ε) :
    calls (d.Read p w).2.trace = calls w.trace ++ [(d.side, Op.Read p)] := by
  simp [dav.Read, calls_Read_loop, World.log, calls_append, calls]

theorem calls_Write (d : dav σ ε) (p : String) (data : Bytes) (w : World σ ε) :
    calls (d.Write p data w).2.trace = calls w.trace ++ [(d.side, Op.Write p data)] := by
  simp [dav.Write, calls_Write_loop, World.log, calls_append, calls]

theorem calls_RemoveFile (d : dav σ ε) (p : String) (w : World σ ε) :
    calls (d.RemoveFile p w).2.trace = calls w.trace ++ [(d.side, Op.Remove p)] := by
  simp [dav.RemoveFile, calls_RemoveFile_loop, World.log, calls_append, calls]

theorem calls_print (w : World σ ε) (l : Line ε) : calls (w.print l).trace = calls w.trace := by
  simp [World.print, World.log, calls_append, calls]

theorem calls_transfer (oClient tClient : dav σ ε) (v : String) (w : World σ ε) :
    ∃ tail : List (Side × Op), (∀ c, c ∈ tail → ∃ data, c = (tClient.side, Op.Write v data)) ∧
      calls (main.transfer oClient tClient v w).trace
        = calls w.trace ++ (oClient.side, Op.Read v) :: tail := by
  unfold main.transfer
  have hR := calls_Read oClient v w
  rcases hr : oClient.Read v w with ⟨⟨data, err⟩, w1⟩
  rw [hr] at hR
  cases err with
  | some e =>
    refine ⟨[], by simp, ?_⟩
    simp only [calls_print]
    exact hR
  | none =>
    have hW := calls_Write tClient v data w1
    rcases hw : tClient.Write v data w1 with ⟨err', w2⟩
    rw [hw] at hW
    refine ⟨[(tClient.side, Op.Write v data)], ?_, ?_⟩
    · intro c hc
      exact ⟨data, by simpa using hc⟩
    · cases err' with
      | some e =>
        simp only [hw, calls_print]
        simp only at hW hR
        rw [hW, hR]
        simp
      | none =>
        simp only [hw, calls_print]
        simp only at hW hR
        rw [hW, hR]
        simp

theorem readsOf_transfer (o t : Client σ ε) (v : String) (w : World σ ε) :
    readsOf Side.origin (main.transfer ⟨Side.origin, o⟩ ⟨Side.target, t⟩ v w).trace
        = readsOf Side.origin w.trace ++ [v] ∧
    removesOf Side.target (main.transfer ⟨Side.origin, o⟩ ⟨Side.target, t⟩ v w).trace
        = removesOf Side.target w.trace := by
  obtain ⟨tail, htail, hc⟩ := calls_transfer ⟨Side.origin, o⟩ ⟨Side.target, t⟩ v w
  have h1 : tail.filterMap (readPath Side.origin) = [] := by
    apply List.filterMap_eq_nil_iff.mpr
    intro c hcm
    obtain ⟨data, rfl⟩ := htail c hcm
    rfl
  have h2 : tail.filterMap (removePath Side.target) = [] := by
    apply List.filterMap_eq_nil_iff.mpr
    intro c hcm
    obtain ⟨data, rfl⟩ := htail c hcm
    rfl
  constructor
  · simp only [readsOf, hc, List.filterMap_append, List.filterMap_cons, h1]
    simp [readPath]
  · simp only [removesOf, hc, List.filterMap_append, List.filterMap_cons, h2]
    simp [removePath]

theorem addLoop_calls (o t : Client σ ε) (l : List String) :
    ∀ w : World σ ε,
      readsOf Side.origin (main.addLoop ⟨Side.origin, o⟩ ⟨Side.target, t⟩ l w).trace
          = readsOf Side.origin w.trace ++ l ∧
      removesOf Side.target (main.addLoop ⟨Side.origin, o⟩ ⟨Side.target, t⟩ l w).trace
          = removesOf Side.target w.trace := by
  induction l with
  | nil => intro w; simp [main.addLoop]
  | cons v rest ih =>
    intro w
    obtain ⟨h1, h2⟩ := readsOf_transfer o t v (w.print (Line.addFile v))
    obtain ⟨i1, i2⟩ :=
      ih (main.transfer ⟨Side.origin, o⟩ ⟨Side.target, t⟩ v (w.print (Line.addFile v)))
    simp only [main.addLoop]
    rw [i1, i2, h1, h2]
    simp [readsOf, removesOf, calls_print]

theorem updateLoop_calls (o t : Client σ ε) (l : List String) :
    ∀ w : World σ ε,
      readsOf Side.origin (main.updateLoop ⟨Side.origin, o⟩ ⟨Side.target, t⟩ l w).trace
          = readsOf Side.origin w.trace ++ l ∧
      removesOf Side.target (main.updateLoop ⟨Side.origin, o⟩ ⟨Side.target, t⟩ l w).trace
          = removesOf Side.target w.trace := by
  induction l with
  | nil => intro w; simp [main.updateLoop]
  | cons v rest ih =>
    intro w
    obtain ⟨h1, h2⟩ := readsOf_transfer o t v (w.print (Line.updateFile v))
    obtain ⟨i1, i2⟩ :=
      ih (main.transfer ⟨Side.origin, o⟩ ⟨Side.target, t⟩ v (w.print (Line.updateFile v)))
    simp only [main.updateLoop]
    rw [i1, i2, h1, h2]
    simp [readsOf, removesOf, calls_print]

theorem removeLoop_calls (t : Client σ ε) (l : List String) :
    ∀ w : World σ ε,
      readsOf Side.origin (main.removeLoop ⟨Side.target, t⟩ l w).trace
          = readsOf Side.origin w.trace ∧
      removesOf Side.target (main.removeLoop ⟨Side.target, t⟩ l w).trace
          = removesOf Side.target w.trace ++ l := by
  induction l with
  | nil => intro w; simp [main.removeLoop]
  | cons v rest ih =>
    intro w
    have hR := calls_RemoveFile ⟨Side.target, t⟩ v (w.print (Line.removeFile v))
    simp only [main.removeLoop]
    rcases hr : dav.RemoveFile ⟨Side.target, t⟩ v (w.print (Line.removeFile v)) with ⟨err, w1⟩
    rw [hr] at hR
    simp only [calls_print] at hR
    cases err with
    | some e =>
      obtain ⟨i1, i2⟩ := ih (w1.print (Line.errRemoving v e))
      simp only
      rw [i1, i2]
      simp [readsOf, removesOf, calls_print, hR, readPath, removePath]
    | none =>
      obtain ⟨i1, i2⟩ := ih (w1.print (Line.removed v))
      simp only
      rw [i1, i2]
      simp [readsOf, removesOf, calls_print, hR, readPath, removePath]

/-- C3, evaluated on the code: with the plan "add `/f`", an origin whose every `Read` attempt
fails and a target that accepts everything, the add loop makes the three failed read attempts
and then calls `Write` on the target for `/f` with empty data, and prints that the file was
written. -/
theorem reconcile_writes_after_failed_read :
    (main.reconcile ⟨Side.origin, unreachable⟩ ⟨Side.target, accepting⟩ ["/f"] [] []
        ⟨(), []⟩).trace =
      [Event.print (Line.addFile "/f"),
       Event.call Side.origin (Op.Read "/f"),
       Event.attempt Side.origin (Op.Read "/f") false,
       Event.attempt Side.origin (Op.Read "/f") false,
       Event.attempt Side.origin (Op.Read "/f") false,
       Event.call Side.target (Op.Write "/f" []),
       Event.attempt Side.target (Op.Write "/f" []) true,
       Event.print (Line.written "/f")] := by
  rfl

/-- C10: whatever the two transports do, the reconcile loops call `Read` on the origin once
for each entry of the add list and then of the update list, in list order, and `RemoveFile` on
the target once for each entry of the remove list, in list order; the loops always finish. -/
theorem reconcile_processes_every_path (o t : Client σ ε)
    (addFList updateFList removeFList : List String) (w : World σ ε) :
    readsOf Side.origin (main.reconcile ⟨Side.origin, o⟩ ⟨Side.target, t⟩
        addFList updateFList removeFList w).trace
      = readsOf Side.origin w.trace ++ (addFList ++ updateFList) ∧
    removesOf Side.target (main.reconcile ⟨Side.origin, o⟩ ⟨Side.target, t⟩
        addFList updateFList removeFList w).trace
      = removesOf Side.target w.trace ++ removeFList := by
  unfold main.reconcile
  obtain ⟨a1, a2⟩ := addLoop_calls o t addFList w
  obtain ⟨u1, u2⟩ := updateLoop_calls o t updateFList
    (main.addLoop ⟨Side.origin, o⟩ ⟨Side.target, t⟩ addFList w)
  obtain ⟨r1, r2⟩ := removeLoop_calls t removeFList
    (main.updateLoop ⟨Side.origin, o⟩ ⟨Side.target, t⟩ updateFList
      (main.addLoop ⟨Side.origin, o⟩ ⟨Side.target, t⟩ addFList w))
  rw [r1, r2, u1, u2, a1, a2]
  simp

end ReconcilerLemmas

/-! ## Tree Lister: lemmas -/

section TreeListerLemmas
variable {σ ε : Type}

theorem mem_set (fl : FileList) (k : String) (v : FileInfo) (e : String × FileInfo)
    (h : e ∈ fl.set k v) : e ∈ fl ∨ e = (k, v) := by
  induction fl with
  | nil => simpa [FileList.set] using h
  | cons hd tl ih =>
    obtain ⟨k', v'⟩ := hd
    by_cases hk : k' = k
    · simp only [FileList.set, hk, if_true] at h
      rcases List.mem_cons.mp h with h | h
      · exact Or.inr h
      · exact Or.inl (List.mem_cons_of_mem _ h)
    · simp only [FileList.set, hk, if_false] at h
      rcases List.mem_cons.mp h with h | h
      · exact Or.inl (by rw [h]; exact List.mem_cons_self _ _)
      · rcases ih h with h | h
        · exact Or.inl (List.mem_cons_of_mem _ h)
        · exact Or.inr h

theorem mem_merge (m : List (String × FileInfo)) :
    ∀ (fl : FileList) (e : String × FileInfo), e ∈ fl.merge m → e ∈ fl ∨ e ∈ m := by
  induction m with
  | nil => intro fl e h; exact Or.inl h
  | cons hd tl ih =>
    obtain ⟨k, v⟩ := hd
    intro fl e h
    rcases ih (fl.set k v) e h with h | h
    · rcases mem_set fl k v e h with h | h
      · exact Or.inl h
      · exact Or.inr (by rw [h]; exact List.mem_cons_self _ _)
    · exact Or.inr (List.mem_cons_of_mem _ h)

theorem set_fresh (fl : FileList) (k : String) (v : FileInfo) (h : k ∉ fl.keys) :
    fl.set k v = fl ++ [(k, v)] := by
  induction fl with
  | nil => rfl
  | cons hd tl ih =>
    obtain ⟨k', v'⟩ := hd
    simp only [FileList.keys, List.map_cons, List.mem_cons, not_or] at h
    have hk : ¬ k' = k := fun e => h.1 e.symm
    simp only [FileList.set, hk, if_false, List.cons_append]
    rw [ih h.2]

theorem merge_fresh (m : List (String × FileInfo)) :
    ∀ fl : FileList, (fl.keys ++ FileList.keys m).Nodup → fl.merge m = fl ++ m := by
  induction m with
  | nil => intro fl _; simp [FileList.merge]
  | cons hd tl ih =>
    obtain ⟨k, v⟩ := hd
    intro fl h
    have hk : k ∉ fl.keys := by
      intro hin
      have := (List.nodup_append.mp h).2.2
      exact this hin (by simp [FileList.keys])
    simp only [FileList.merge]
    rw [set_fresh fl k v hk, ih]
    · simp
    · have hperm : (FileList.keys (fl ++ [(k, v)]) ++ FileList.keys tl).Perm
          (fl.keys ++ FileList.keys ((k, v) :: tl)) := by
        simp [FileList.keys]
      exact hperm.nodup_iff.mpr h

theorem KeysUnder_sub (remoteDir name : String) (fl : FileList)
    (h : KeysUnder (remoteDir ++ name ++ "/") fl) : KeysUnder remoteDir fl := by
  intro k v hkv
  obtain ⟨mid, hmid⟩ := h k v hkv
  exact ⟨name ++ "/" ++ mid, by rw [hmid]; simp [String.append_assoc]⟩

theorem KeysUnder_loop (recurse : String → World σ ε → Option (Listing σ ε))
    (remoteDir : String) (err : Option ε)
    (hrec : ∀ p w fl e w', recurse p w = some ((some fl, e), w') → KeysUnder p fl) :
    ∀ (files : List FileInfo) (acc : FileList) (w : World σ ε) (fl : FileList) (e : Option ε)
      (w' : World σ ε), KeysUnder remoteDir acc →
      dav.ListFiles.loop recurse remoteDir err files acc w = some ((some fl, e), w') →
      KeysUnder remoteDir fl := by
  intro files
  induction files with
  | nil =>
    intro acc w fl e w' hacc h
    simp only [dav.ListFiles.loop, Option.some.injEq, Prod.mk.injEq] at h
    rw [← h.1.1]
    exact hacc
  | cons file rest ih =>
    intro acc w fl e w' hacc h
    have hset : KeysUnder remoteDir (acc.set (remoteDir ++ file.Name) file) := by
      intro k v hkv
      rcases mem_set acc _ _ _ hkv with hm | hm
      · exact hacc k v hm
      · cases hm
        exact ⟨"", by simp⟩
    simp only [dav.ListFiles.loop] at h
    cases hd : file.IsDir with
    | false =>
      simp only [hd] at h
      exact ih _ w fl e w' hset h
    | true =>
      simp only [hd, if_true] at h
      rcases hr : recurse (remoteDir ++ file.Name ++ "/") w with _ | ⟨⟨sub, e'⟩, w1⟩
      · simp [hr] at h
      · rw [hr] at h
        cases e' with
        | some x => simp at h
        | none =>
          simp only at h
          refine ih _ w1 fl e w' ?_ h
          intro k v hkv
          rcases mem_merge _ _ _ hkv with hm | hm
          · exact hset k v hm
          · cases sub with
            | none => simp at hm
            | some l =>
              exact KeysUnder_sub remoteDir file.Name l (hrec _ _ _ _ _ hr) k v hm

theorem KeysUnder_ListFiles (d : dav σ ε) :
    ∀ (fuel : Nat) (remoteDir : String) (w : World σ ε) (fl : FileList) (e : Option ε)
      (w' : World σ ε), d.ListFiles fuel remoteDir w = some ((some fl, e), w') →
      KeysUnder remoteDir fl := by
  intro fuel
  induction fuel with
  | zero => intro remoteDir w fl e w' h; simp [dav.ListFiles] at h
  | succ fuel ih =>
    intro remoteDir w fl e w' h
    simp only [dav.ListFiles] at h
    rcases hr : d.ReadDir remoteDir w with ⟨⟨files, err⟩, w1⟩
    rw [hr] at h
    cases err with
    | some x => simp at h
    | none =>
      simp only at h
      exact KeysUnder_loop (dav.ListFiles d fuel) remoteDir none
        (fun p w fl e w' hp => ih p w fl e w' hp) files [] w1 fl e w'
        (fun k v hkv => by simp at hkv) h

theorem sep_split (c : Char) : ∀ (l1 l2 t1 t2 : List Char), c ∉ l1 → c ∉ l2 →
    (t1 = [] ∨ ∃ z, t1 = c :: z) → (t2 = [] ∨ ∃ z, t2 = c :: z) →
    l1 ++ t1 = l2 ++ t2 → l1 = l2 := by
  intro l1
  induction l1 with
  | nil =>
    intro l2 t1 t2 _ h2 ht1 _ h
    cases l2 with
    | nil => rfl
    | cons x l2 =>
      exfalso
      rcases ht1 with rfl | ⟨z, rfl⟩
      · simp at h
      · simp only [List.nil_append, List.cons_append, List.cons.injEq] at h
        exact h2 (by rw [h.1]; exact List.mem_cons_self _ _)
  | cons x l1 ih =>
    intro l2 t1 t2 h1 h2 ht1 ht2 h
    cases l2 with
    | nil =>
      exfalso
      rcases ht2 with rfl | ⟨z, rfl⟩
      · simp at h
      · simp only [List.nil_append, List.cons_append, List.cons.injEq] at h
        exact h1 (by rw [← h.1]; exact List.mem_cons_self _ _)
    | cons y l2 =>
      simp only [List.cons_append, List.cons.injEq] at h
      rw [h.1, ih l2 t1 t2 (fun hc => h1 (List.mem_cons_of_mem _ hc))
        (fun hc => h2 (List.mem_cons_of_mem _ hc)) ht1 ht2 h.2]

mutual
theorem Node.entries_keys : ∀ (k : Node) (remoteDir key : String),
    key ∈ (k.entries remoteDir).keys → KeyOf remoteDir k.name key
  | .file n s m, remoteDir, key, h => by
    simp only [Node.entries, FileList.keys, List.map_cons, List.map_nil, List.mem_singleton] at h
    exact ⟨"", by simp [h, Node.name], Or.inl rfl⟩
  | .dir n s m kids, remoteDir, key, h => by
    simp only [Node.entries, FileList.keys, List.map_cons, List.mem_cons] at h
    rcases h with h | h
    · exact ⟨"", by simp [h, Node.name], Or.inl rfl⟩
    · obtain ⟨c, _, y, hy, _⟩ := entriesList_keys kids (remoteDir ++ n ++ "/") key h
      exact ⟨"/" ++ (c.name ++ y), by rw [hy]; simp [Node.name, String.append_assoc],
        Or.inr ⟨_, by simp; rfl⟩⟩
theorem entriesList_keys : ∀ (ks : List Node) (remoteDir key : String),
    key ∈ (entriesList remoteDir ks).keys → ∃ c, c ∈ ks ∧ KeyOf remoteDir c.name key
  | [], _, _, h => by simp [entriesList, FileList.keys] at h
  | k :: ks, remoteDir, key, h => by
    simp only [entriesList, FileList.keys, List.map_append, List.mem_append] at h
    rcases h with h | h
    · exact ⟨k, List.mem_cons_self _ _, Node.entries_keys k remoteDir key h⟩
    · obtain ⟨c, hc, hk⟩ := entriesList_keys ks remoteDir key h
      exact ⟨c, List.mem_cons_of_mem _ hc, hk⟩
end

theorem KeyOf_name_eq (remoteDir a b key : String) (ha : '/' ∉ a.data) (hb : '/' ∉ b.data)
    (h1 : KeyOf remoteDir a key) (h2 : KeyOf remoteDir b key) : a = b := by
  obtain ⟨y1, e1, t1⟩ := h1
  obtain ⟨y2, e2, t2⟩ := h2
  have h : (remoteDir ++ a ++ y1).data = (remoteDir ++ b ++ y2).data := by rw [← e1, ← e2]
  simp only [String.data_append, List.append_assoc] at h
  exact String.ext (sep_split '/' a.data b.data y1.data y2.data ha hb t1 t2
    (List.append_cancel_left h))

theorem Node.WF_name (k : Node) (h : k.WF) : '/' ∉ k.name.data := by
  cases k with
  | file n s m => simpa [Node.WF, Node.name] using h
  | dir n s m kids =>
    simp only [Node.WF] at h
    simpa [Node.name] using h.1

theorem WFList_mem : ∀ (ks : List Node), WFList ks → ∀ c, c ∈ ks → c.WF
  | [], _, c, hc => by simp at hc
  | k :: ks, h, c, hc => by
    simp only [WFList] at h
    rcases List.mem_cons.mp hc with rfl | hc
    · exact h.1
    · exact WFList_mem ks h.2.2 c hc

mutual
theorem Node.entries_nodup : ∀ (k : Node) (remoteDir : String), k.WF →
    (k.entries remoteDir).keys.Nodup
  | .file n s m, remoteDir, _ => by simp [Node.entries, FileList.keys]
  | .dir n s m kids, remoteDir, h => by
    simp only [Node.WF] at h
    simp only [Node.entries, FileList.keys, List.map_cons, List.nodup_cons]
    refine ⟨?_, entriesList_nodup kids (remoteDir ++ n ++ "/") h.2⟩
    intro hin
    obtain ⟨c, _, y, hy, _⟩ := entriesList_keys kids (remoteDir ++ n ++ "/") _ hin
    have := congrArg String.data hy
    simp only [String.data_append, List.append_assoc] at this
    have h2 : n.data = n.data ++ (['/'] ++ (c.name.data ++ y.data)) :=
      List.append_cancel_left this
    have h3 := List.self_eq_append_right.mp h2
    simp at h3
theorem entriesList_nodup : ∀ (ks : List Node) (remoteDir : String), WFList ks →
    (entriesList remoteDir ks).keys.Nodup
  | [], _, _ => by simp [entriesList, FileList.keys]
  | k :: ks, remoteDir, h => by
    simp only [WFList] at h
    simp only [entriesList, FileList.keys, List.map_append]
    refine List.nodup_append.mpr ⟨Node.entries_nodup k remoteDir h.1,
      entriesList_nodup ks remoteDir h.2.2, ?_⟩
    intro key h1 h2
    obtain ⟨c, hc, hk⟩ := entriesList_keys ks remoteDir key h2
    have hk' := Node.entries_keys k remoteDir key h1
    exact h.2.1 c hc (KeyOf_name_eq remoteDir c.name k.name key
      (Node.WF_name c (WFList_mem ks h.2.2 c hc)) (Node.WF_name k h.1) hk hk')
end

theorem Node.descendants_ne_nil (k : Node) : ∀ e, e ∈ k.descendants → e.1 ≠ [] := by
  intro e he
  cases k with
  | file n s m =>
    simp only [Node.descendants, List.mem_singleton] at he
    rw [he]; simp
  | dir n s m kids =>
    simp only [Node.descendants, List.mem_cons, List.mem_map] at he
    rcases he with he | ⟨x, _, hx⟩
    · rw [he]; simp
    · rw [← hx]; simp

theorem descendantsList_ne_nil : ∀ (ks : List Node) e, e ∈ descendantsList ks → e.1 ≠ []
  | [], e, he => by simp [descendantsList] at he
  | k :: ks, e, he => by
    simp only [descendantsList, List.mem_append] at he
    rcases he with he | he
    · exact Node.descendants_ne_nil k e he
    · exact descendantsList_ne_nil ks e he

theorem joinPath_cons (n : String) (ns : List String) (h : ns ≠ []) :
    joinPath (n :: ns) = n ++ "/" ++ joinPath ns := by
  cases ns with
  | nil => exact absurd rfl h
  | cons m ms => rfl

mutual
theorem Node.entries_eq : ∀ (k : Node) (remoteDir : String),
    k.entries remoteDir = k.descendants.map (fun e => (remoteDir ++ joinPath e.1, e.2))
  | .file n s m, remoteDir => by simp [Node.entries, Node.descendants, joinPath]
  | .dir n s m kids, remoteDir => by
    simp only [Node.entries, Node.descendants, List.map_cons, List.map_map, joinPath]
    rw [entriesList_eq kids (remoteDir ++ n ++ "/")]
    congr 1
    apply List.map_congr_left
    intro e he
    simp only [Function.comp]
    rw [joinPath_cons n e.1 (descendantsList_ne_nil kids e he)]
    simp [String.append_assoc]
theorem entriesList_eq : ∀ (ks : List Node) (remoteDir : String),
    entriesList remoteDir ks
      = (descendantsList ks).map (fun e => (remoteDir ++ joinPath e.1, e.2))
  | [], _ => by simp [entriesList, descendantsList]
  | k :: ks, remoteDir => by
    simp only [entriesList, descendantsList, List.map_append]
    rw [Node.entries_eq k remoteDir, entriesList_eq ks remoteDir]
end

theorem keys_append (a b : FileList) : FileList.keys (a ++ b) = a.keys ++ FileList.keys b := by
  simp [FileList.keys]

theorem ReadDir_of_Lists (d : dav σ ε) (remoteDir : String) (kids : List Node)
    (h : Lists d.Client remoteDir kids) (w : World σ ε) :
    ∃ w', d.ReadDir remoteDir w = ((kids.map Node.info, none), w') := by
  obtain ⟨k, hk, hfail, hok⟩ := h w.state
  exact ⟨_, (ReadDir_retry d remoteDir w).1 k _ hk hfail hok⟩

theorem ListFiles_loop_entries (d : dav σ ε) (fuel : Nat) (remoteDir : String)
    (ih : ∀ (dir : String) (kids : List Node) (w : World σ ε), depthList kids < fuel →
      Lists d.Client dir kids → ServedList d.Client dir kids →
      (entriesList dir kids).keys.Nodup →
      ∃ w', d.ListFiles fuel dir w = some ((some (entriesList dir kids), none), w')) :
    ∀ (rest : List Node) (acc : FileList) (w : World σ ε), depthList rest < fuel + 1 →
      ServedList d.Client remoteDir rest →
      (acc.keys ++ (entriesList remoteDir rest).keys).Nodup →
      ∃ w', dav.ListFiles.loop (d.ListFiles fuel) remoteDir none (rest.map Node.info) acc w
        = some ((some (acc ++ entriesList remoteDir rest), none), w') := by
  intro rest
  induction rest with
  | nil => intro acc w _ _ _; exact ⟨w, by simp [dav.ListFiles.loop, entriesList]⟩
  | cons k ks ihl =>
    intro acc w hdepth hserved hnodup
    simp only [depthList] at hdepth
    simp only [ServedList] at hserved
    cases k with
    | file n s m =>
      simp only [entriesList, Node.entries, keys_append] at hnodup
      have hn' : ((acc ++ [(remoteDir ++ n, (⟨n, s, m, false⟩ : FileInfo))]).keys
          ++ (entriesList remoteDir ks).keys).Nodup := by
        simpa [keys_append, FileList.keys] using hnodup
      have hfresh : remoteDir ++ n ∉ acc.keys := by
        intro hin
        exact (List.nodup_append.mp hnodup).2.2 hin (by simp [FileList.keys])
      obtain ⟨w', hw'⟩ := ihl (acc ++ [(remoteDir ++ n, ⟨n, s, m, false⟩)]) w
        (lt_of_le_of_lt (le_max_right _ _) hdepth) hserved.2 hn'
      refine ⟨w', ?_⟩
      simp only [List.map_cons, Node.info, dav.ListFiles.loop]
      rw [set_fresh acc _ _ hfresh]
      simp only [Bool.false_eq_true, if_false]
      rw [hw']
      simp [entriesList, Node.entries]
    | dir n s m kids =>
      simp only [Node.depth] at hdepth
      simp only [Node.Served] at hserved
      simp only [entriesList, Node.entries, keys_append] at hnodup
      have hn3 : (((acc ++ [(remoteDir ++ n, (⟨n, s, m, true⟩ : FileInfo))]).keys
          ++ (entriesList (remoteDir ++ n ++ "/") kids).keys)
          ++ (entriesList remoteDir ks).keys).Nodup := by
        simpa [keys_append, FileList.keys] using hnodup
      have hfresh : remoteDir ++ n ∉ acc.keys := by
        intro hin
        exact (List.nodup_append.mp hnodup).2.2 hin (by simp [FileList.keys])
      have hsubdepth : depthList kids < fuel := by
        have := lt_of_le_of_lt (le_max_left _ _) hdepth
        omega
      obtain ⟨w1, hw1⟩ := ih (remoteDir ++ n ++ "/") kids w hsubdepth hserved.1.1 hserved.1.2
        hn3.of_append_left.of_append_right
      have hn' : ((acc ++ (remoteDir ++ n, (⟨n, s, m, true⟩ : FileInfo))
          :: entriesList (remoteDir ++ n ++ "/") kids).keys
          ++ (entriesList remoteDir ks).keys).Nodup := by
        simpa [keys_append, FileList.keys] using hnodup
      obtain ⟨w', hw'⟩ := ihl (acc ++ (remoteDir ++ n, ⟨n, s, m, true⟩)
          :: entriesList (remoteDir ++ n ++ "/") kids) w1
        (lt_of_le_of_lt (le_max_right _ _) hdepth) hserved.2 hn'
      refine ⟨w', ?_⟩
      simp only [List.map_cons, Node.info, dav.ListFiles.loop]
      rw [set_fresh acc _ _ hfresh]
      simp only [if_true, hw1, Option.getD_some]
      rw [merge_fresh _ _ hn3.of_append_left]
      simp only [List.append_assoc, List.singleton_append]
      rw [hw']
      simp [entriesList, Node.entries]

theorem ListFiles_entries (d : dav σ ε) :
    ∀ (fuel : Nat) (dir : String) (kids : List Node) (w : World σ ε), depthList kids < fuel →
      Lists d.Client dir kids → ServedList d.Client dir kids →
      (entriesList dir kids).keys.Nodup →
      ∃ w', d.ListFiles fuel dir w = some ((some (entriesList dir kids), none), w') := by
  intro fuel
  induction fuel with
  | zero => intro dir kids w h; omega
  | succ fuel ih =>
    intro dir kids w hdepth hlists hserved hnodup
    obtain ⟨w1, hw1⟩ := ReadDir_of_Lists d dir kids hlists w
    obtain ⟨w', hw'⟩ := ListFiles_loop_entries d fuel dir ih kids [] w1 hdepth hserved
      (by simpa [FileList.keys] using hnodup)
    refine ⟨w', ?_⟩
    simp only [dav.ListFiles, hw1]
    rw [hw']
    simp

/-- C4, evaluated on the code: when every attempt to list the root fails, `ListFiles` returns
the empty, non-nil map and a nil error; when the root lists one directory `a` and every
attempt to list `/a/` fails, `ListFiles` returns the map with the single entry `/a` and a nil
error. -/
theorem ListFiles_failed_listing_reports_success :
    dav.ListFiles ⟨Side.origin, unreachable⟩ 1 "/" ⟨(), []⟩
      = some ((some [], none), ⟨(), failureTrace Side.origin (Op.ReadDir "/")⟩) ∧
    dav.ListFiles ⟨Side.origin, brokenSubdir⟩ 2 "/" ⟨(), []⟩
      = some ((some [("/a", ⟨"a", 0, 100, true⟩)], none),
          ⟨(), successTrace Side.origin (Op.ReadDir "/") 0
            ++ failureTrace Side.origin (Op.ReadDir "/a/")⟩) := by
  refine ⟨rfl, rfl⟩

/-- C8: when the transport lists every directory of a remote tree whose names are base names
and distinct within each directory, `ListFiles` with enough fuel returns no error and a map
with unique keys that holds exactly one entry per descendant of the root: the entry's key is
the root followed by the names on the path to the node joined by the separator, and its value
is the node's metadata. -/
theorem ListFiles_lists_every_descendant (c : Client σ ε) (side : Side) (root : String)
    (kids : List Node) (fuel : Nat) (w : World σ ε) (hwf : WFList kids)
    (hroot : Lists c root kids) (hsub : ServedList c root kids)
    (hfuel : depthList kids < fuel) :
    ∃ fl w', dav.ListFiles ⟨side, c⟩ fuel root w = some ((some fl, none), w') ∧
      fl.keys.Nodup ∧
      fl.Perm ((descendantsList kids).map (fun e => (root ++ joinPath e.1, e.2))) := by
  have hn := entriesList_nodup kids root hwf
  obtain ⟨w', hw'⟩ := ListFiles_entries ⟨side, c⟩ fuel root kids w hfuel hroot hsub hn
  refine ⟨entriesList root kids, w', hw', hn, ?_⟩
  rw [entriesList_eq kids root]

/-- C8 on the tree with the files `/a/b.txt` and `/a/c/d.txt`, listed from `/`: the result has
exactly four entries. -/
theorem ListFiles_lists_every_descendant_witness :
    ∃ fl w', dav.ListFiles ⟨Side.origin, treeServer "/" exampleTree⟩ 3 "/" ⟨(), []⟩
        = some ((some fl, none), w') ∧
      fl.keys.Nodup ∧
      fl.Perm ((descendantsList exampleTree).map (fun e => ("/" ++ joinPath e.1, e.2))) ∧
      fl.length = 4 := by
  obtain ⟨fl, w', h, hn, hp⟩ := ListFiles_lists_every_descendant (treeServer "/" exampleTree)
    Side.origin "/" exampleTree 3 ⟨(), []⟩
    (by simp [exampleTree, WFList, Node.WF, Node.name])
    (fun _ => ⟨0, by decide, fun j hj => absurd hj (by omega), rfl⟩)
    ⟨⟨fun _ => ⟨0, by decide, fun j hj => absurd hj (by omega), rfl⟩, trivial,
      ⟨fun _ => ⟨0, by decide, fun j hj => absurd hj (by omega), rfl⟩, trivial, trivial⟩,
      trivial⟩, trivial⟩
    (by decide)
  exact ⟨fl, w', h, hn, hp, by rw [hp.length_eq]; rfl⟩

/-- C9 as stated fails: in the listing of the tree with the files `/a/b.txt` and
`/a/c/d.txt`, the directory `a` has the key `/a`, which does not end with the separator, and
neither `/a/` nor `/a/c/` is a key. -/
theorem ListFiles_directory_key_has_no_separator :
    ∃ fl w', dav.ListFiles ⟨Side.origin, treeServer "/" exampleTree⟩ 3 "/" ⟨(), []⟩
        = some ((some fl, none), w') ∧
      (∃ k v, (k, v) ∈ fl ∧ v.IsDir = true ∧ ¬ endsWithSeparator k) ∧
      "/a/" ∉ fl.keys ∧ "/a/c/" ∉ fl.keys :=
  ⟨exampleListing, _, rfl, ⟨"/a", ⟨"a", 0, 100, true⟩, by decide, rfl, by decide⟩,
    by decide, by decide⟩

/-- C9 as amended: each key of the map `ListFiles` returns is a path below the listed
directory that ends with the name of its own entry, for directories as for files, with nothing
appended; for the tree with the files `/a/b.txt` and `/a/c/d.txt` listed from `/` the keys are
exactly `/a`, `/a/b.txt`, `/a/c` and `/a/c/d.txt`. -/
theorem ListFiles_keys_end_with_name :
    (∀ (σ ε : Type) (d : dav σ ε) (fuel : Nat) (remoteDir : String) (w : World σ ε)
        (fl : FileList) (e : Option ε) (w' : World σ ε),
        d.ListFiles fuel remoteDir w = some ((some fl, e), w') →
        ∀ k v, (k, v) ∈ fl → ∃ mid : String, k = remoteDir ++ mid ++ v.Name) ∧
    (∃ fl w', dav.ListFiles ⟨Side.origin, treeServer "/" exampleTree⟩ 3 "/" ⟨(), []⟩
        = some ((some fl, none), w') ∧
      ∀ k, k ∈ fl.keys ↔ k = "/a" ∨ k = "/a/b.txt" ∨ k = "/a/c" ∨ k = "/a/c/d.txt") :=
  ⟨fun _ _ d fuel remoteDir w fl e w' h => KeysUnder_ListFiles d fuel remoteDir w fl e w' h,
   ⟨exampleListing, _, rfl, fun k => by simp [exampleListing, FileList.keys]⟩⟩

/-- C9 as amended, at the directory `c` of the example: its key `/a/c` ends with its name. -/
theorem ListFiles_keys_end_with_name_witness :
    ∃ mid : String, "/a/c" = "/" ++ mid ++ (FileInfo.mk "c" 0 102 true).Name :=
  ListFiles_keys_end_with_name.1 Unit String ⟨Side.origin, treeServer "/" exampleTree⟩ 3 "/"
    ⟨(), []⟩ exampleListing none _ rfl "/a/c" ⟨"c", 0, 102, true⟩ (by decide)

end TreeListerLemmas

end WebDAVSync
